import Mathlib

/-!
# Verification of the calcurse key-binding engine (src/keys.c)

A shallow embedding of the key-binding subsystem of calcurse.  Pure C
functions become Lean functions; the global mutable tables `keys[]`,
`actions[]` and `actions_ext` become an explicit state record `KState`
threaded through the operations.  C strings are modelled as lists of
bytes (`List Nat`), C `int` values as `Int`.

External constants and helpers that are declared in headers or sibling
files not shipped here (`calcurse.h`, `llist.c`, `utf8.c`, ncurses) are
modelled from the specification; each such definition carries a doc
comment saying so.
-/

set_option maxRecDepth 100000

namespace Calcurse

/-- Modelled from the spec: number of virtual keys, the length of the
`keydef[]` table in `keys.c` (31 generic plus 17 other entries). -/
def NBVKEYS : Nat := 48

/-- Modelled from the spec: the `KEY_UNDEF` member of `enum vkey` in
`calcurse.h`, the value stored in `actions[]` for an unassigned key.
It follows `NBVKEYS` in the enumeration. -/
def KEY_UNDEF : Nat := 49

/-- Modelled from the spec: the ncurses constant `KEY_MAX` (octal 0777),
the upper bound of the pseudo-character range; the spec calls it
`PSEUDO_MAX`. -/
def KEY_MAXC : Nat := 511

/-- Modelled from the spec: the ncurses constant `KEY_MIN` (octal 0401),
the lower bound of the pseudo-character range; the spec calls it
`PSEUDO_MIN`. -/
def KEY_MINC : Nat := 257

/-- Modelled from the spec: the ncurses constant `KEY_RESIZE`
(octal 0632), the terminal-resize pseudo key. -/
def KEY_RESIZE : Nat := 410

/-- Bytes of an ASCII Lean string literal; used to write the byte-list
model of C strings readably. -/
def str (s : String) : List Nat := s.data.map Char.toNat

/-- Modelled from the spec: the ncurses `keyname()` result for codes in
the ASCII range `[1,127]`: caret notation `^A`..`^_` for control codes,
the character itself for printable codes, and `^?` for 127. -/
def ascName (i : Nat) : List Nat :=
  if i < 32 then [94, 64 + i]
  else if i < 127 then [i]
  else [94, 63]

/-- The cached keyname table `keynames[]` as it stands after
`keys_init`: ncurses-reported names for the ASCII range, the calcurse
short-form overrides of `keys.c` lines 204-229, and the ncurses names
of the pseudo keys that the default table uses (`KEY_BTAB`) plus a
representative uncustomized one (`KEY_BACKSPACE`).  Codes without a
name hold the empty string, modelled as `[]`.  The ncurses-supplied
part is modelled from the spec, the overrides come from the source. -/
def keynames (i : Nat) : List Nat :=
  if i = 9 then str "TAB"
  else if i = 10 then str "RET"
  else if i = 27 then str "ESC"
  else if i = 32 then str "SPC"
  else if 1 ≤ i ∧ i < 128 then ascName i
  else if i = 258 then str "DWN"
  else if i = 259 then str "UP"
  else if i = 260 then str "LFT"
  else if i = 261 then str "RGT"
  else if i = 262 then str "HOM"
  else if i = 360 then str "END"
  else if i = 338 then str "PgD"
  else if i = 339 then str "PgU"
  else if i = 331 then str "INS"
  else if i = 330 then str "DEL"
  else if 265 ≤ i ∧ i ≤ 276 then str ("F" ++ toString (i - 264))
  else if i = 263 then str "KEY_BACKSPACE"
  else if i = 353 then str "KEY_BTAB"
  else []

/-- Modelled from the spec: `UTF8_LENGTH` of `calcurse.h` — the number
of bytes of a UTF-8 character as indicated by its lead byte. -/
def utf8_length (b : Nat) : Nat :=
  if b < 0xC0 then 1
  else if b < 0xE0 then 2
  else if b < 0xF0 then 3
  else if b < 0xF8 then 4
  else 1

/-- Modelled from the spec: `utf8_encode` of `utf8.c` — the UTF-8 byte
sequence of a code point. -/
def utf8_encode (c : Nat) : List Nat :=
  if c < 0x80 then [c]
  else if c < 0x800 then [0xC0 + c / 64, 0x80 + c % 64]
  else if c < 0x10000 then
    [0xE0 + c / 4096, 0x80 + (c / 64) % 64, 0x80 + c % 64]
  else
    [0xF0 + c / 262144, 0x80 + (c / 4096) % 64, 0x80 + (c / 64) % 64,
     0x80 + c % 64]

/-- The UTF-8 encoding viewed as a C string: code point 0 encodes to a
NUL byte, which as a C string is empty. -/
def utf8_encode_cstr (c : Nat) : List Nat :=
  if c = 0 then [] else utf8_encode c

/-- Modelled from the spec: `utf8_decode` of `utf8.c` — decode the code
point of the UTF-8 character starting the byte list.  An empty C string
starts with the NUL byte, which decodes to 0. -/
def utf8_decode (s : List Nat) : Nat :=
  match s with
  | [] => 0
  | b :: rest =>
    let n := utf8_length b
    if n = 2 then (b % 32) * 64 + rest.getD 0 0 % 64
    else if n = 3 then
      (b % 16) * 4096 + (rest.getD 0 0 % 64) * 64 + rest.getD 1 0 % 64
    else if n = 4 then
      (b % 8) * 262144 + (rest.getD 0 0 % 64) * 4096 +
        (rest.getD 1 0 % 64) * 64 + rest.getD 2 0 % 64
    else b

/-- `keys_str2int` (keys.c lines 470-494): legacy aliases first, then a
linear scan of the cached keyname table over the ASCII range `[1,128)`
and the pseudo range `[KEY_MIN, KEY_MAX)`, then the UTF-8 fallback
`utf8_decode(key) + KEY_MAX`. -/
def keys_str2int (key : List Nat) : Int :=
  if key = str "^J" then 10
  else if key = str "KEY_HOME" then 262
  else if key = str "KEY_END" then 360
  else
    match (List.range' 1 127).find? (fun i => keynames i = key) with
    | some i => (i : Int)
    | none =>
      match (List.range' 257 254).find? (fun i => keynames i = key) with
      | some i => (i : Int)
      | none => (utf8_decode key : Int) + 511

/-- `keys_int2str` (keys.c lines 496-511): `-1` has no name; codes below
`KEY_MAX` use the cached table, the empty cached name meaning absent;
codes at or above `KEY_MAX` re-encode `key - KEY_MAX` as UTF-8 text. -/
def keys_int2str (key : Int) : Option (List Nat) :=
  if key = -1 then none
  else if key < 511 then
    (if keynames key.toNat = [] then none else some (keynames key.toNat))
  else some (utf8_encode_cstr (key - 511).toNat)

/-- The mutable global state of `keys.c`: the forward table `keys[]`
(one ordered binding list per virtual key; the element `none` models
the null-pointer sentinel that marks an explicitly undefined action),
the dense reverse array `actions[]` of size `KEY_MAX`, and the
associative list `actions_ext` for codes above the curses range. -/
structure KState where
  keys : List (List (Option (List Nat)))
  actions : List Nat
  actions_ext : List (Int × Nat)
deriving DecidableEq, Repr

/-- `keys_init` (keys.c lines 178-230): every action list empty, every
`actions[]` slot `KEY_UNDEF`, `actions_ext` empty.  (The keyname table
it also fills is the separate pure function `keynames`.) -/
def initState : KState :=
  { keys := List.replicate NBVKEYS []
    actions := List.replicate KEY_MAXC KEY_UNDEF
    actions_ext := [] }

/-- Update the `i`-th entry of a list in place; used to model an
assignment to `keys[i]`.  Out-of-range indices leave the list
unchanged. -/
def listUpd {α : Type} : List α → Nat → (α → α) → List α
  | [], _, _ => []
  | x :: t, 0, f => f x :: t
  | x :: t, n + 1, f => x :: listUpd t n f

/-- `add_if_undefined` (keys.c lines 373-378): an empty binding list
receives the null sentinel marking the action explicitly undefined. -/
def add_if_undefined (l : List (Option (List Nat))) : List (Option (List Nat)) :=
  if l = [] then [none] else l

/-- `del_if_undefined` (keys.c lines 380-385): if the first element's
data is null — true both for the sentinel and, via the null-safe
`LLIST_GET_DATA`, for an empty list — remove the head item (removal of
the null item of an empty list being a no-op). -/
def del_if_undefined (l : List (Option (List Nat))) : List (Option (List Nat)) :=
  match l with
  | [] => []
  | none :: t => t
  | some _ :: _ => l

/-- `add_key_str` (keys.c lines 392-399): unless the action index fails
the (off-by-one) guard `action > NBVKEYS`, drop the undefined sentinel
and append the key's name.  `LLIST_ADD` appending at the tail is
modelled from the spec (llist.c is not shipped; the spec calls the
forward lists ordered with the first entry primary). -/
def add_key_str (s : KState) (action : Nat) (key : Int) : KState :=
  if action > NBVKEYS then s
  else
    let ks := listUpd s.keys action (fun l => del_if_undefined l ++ [keys_int2str key])
    { s with keys := ks }

/-- Remove the first list element equal to `old` (the `strcmp` search
of `del_key_str`); equality on `Option` models `strcmp` on the defined
(non-null) inputs the claims use. -/
def removeFirstStr : List (Option (List Nat)) → Option (List Nat) → List (Option (List Nat))
  | [], _ => []
  | x :: t, old => if x = old then t else x :: removeFirstStr t old

/-- `del_key_str` (keys.c lines 401-420): unless the action index fails
the guard, remove the first entry matching the key's name and re-insert
the undefined sentinel if the list is left empty (the `add_if_undefined`
at `cleanup` runs whether or not a match was found). -/
def del_key_str (s : KState) (action : Nat) (key : Int) : KState :=
  if action > NBVKEYS then s
  else
    let ks := listUpd s.keys action
      (fun l => add_if_undefined (removeFirstStr l (keys_int2str key)))
    { s with keys := ks }

/-- Remove the first pair keyed by `key` from `actions_ext`
(`LLIST_FIND_FIRST` with `key_ext_hasch` followed by `LLIST_REMOVE`). -/
def removeFirstExt : List (Int × Nat) → Int → List (Int × Nat)
  | [], _ => []
  | kv :: t, key => if kv.1 = key then t else kv :: removeFirstExt t key

/-- `keys_assign_binding` (keys.c lines 432-448).  Returns the new state
and the C result: 1 on conflict (state unchanged), 0 on success.  Codes
above `KEY_MAX` go through `actions_ext`; nonnegative codes up to and
including `KEY_MAX` go through the dense array (`actions.set` at index
`KEY_MAX` models the out-of-bounds write as a no-op; see the C7
analysis); negative codes skip the reverse map entirely but still
append to the forward list and report success. -/
def keys_assign_binding (s : KState) (key : Int) (action : Nat) : KState × Int :=
  if key > 511 then
    if ((s.actions_ext.find? (fun kv => kv.1 = key)).isSome) then (s, 1)
    else
      (add_key_str { s with actions_ext := s.actions_ext ++ [(key, action)] } action key, 0)
  else if key > -1 then
    if s.actions.getD key.toNat KEY_UNDEF ≠ KEY_UNDEF then (s, 1)
    else (add_key_str { s with actions := s.actions.set key.toNat action } action key, 0)
  else (add_key_str s action key, 0)

/-- `keys_remove_binding` (keys.c lines 450-468): negative codes are
ignored; codes up to and including `KEY_MAX` clear the dense slot
(again, index `KEY_MAX` is out of bounds in C and modelled as a no-op);
larger codes drop the `actions_ext` entry; in all cases `del_key_str`
updates the forward list. -/
def keys_remove_binding (s : KState) (key : Int) (action : Nat) : KState :=
  if key < 0 then s
  else if key ≤ 511 then
    del_key_str { s with actions := s.actions.set key.toNat KEY_UNDEF } action key
  else
    del_key_str { s with actions_ext := removeFirstExt s.actions_ext key } action key

/-- `keys_get_action` (keys.c lines 286-301): negative input propagates
as `-1`; codes strictly above `KEY_MAX` are looked up in `actions_ext`
(`KEY_UNDEF` when absent); all others — including `KEY_MAX` itself,
which in C reads one slot past the end of `actions[]` and is modelled
here by the `getD` default — read the dense array. -/
def keys_get_action (s : KState) (pressed : Int) : Int :=
  if pressed < 0 then -1
  else if pressed > 511 then
    match s.actions_ext.find? (fun kv => kv.1 = pressed) with
    | some kv => (kv.2 : Int)
    | none => (KEY_UNDEF : Int)
  else (s.actions.getD pressed.toNat KEY_UNDEF : Int)

/-- `keys_check_missing` (keys.c lines 778-787): some action has no
list entry at all. -/
def keys_check_missing (s : KState) : Bool :=
  (List.range NBVKEYS).any (fun i => s.keys.getD i [] = ([] : List (Option (List Nat))))

/-- `keys_check_undefined` (keys.c lines 767-776): some action's first
list data is null (true for the sentinel, and for an empty list via the
null-safe `LLIST_GET_DATA`). -/
def keys_check_undefined (s : KState) : Bool :=
  (List.range NBVKEYS).any (fun i => (s.keys.getD i []).headD none = none)

/-- `keys_wgetch` (keys.c lines 303-328) over an explicit input stream:
`wgetch` pops the next raw unit (yielding `ERR = -1` on an exhausted
stream).  Curses pseudo characters (at or above `KEY_MIN`) and
single-byte units return immediately; a multi-byte lead byte pulls in
its continuation bytes and returns `codepoint + KEY_MAX`.  Returns the
decoded code and the remaining stream. -/
def keys_wgetch (input : List Int) : Int × List Int :=
  match input with
  | [] => (-1, [])
  | ch :: rest =>
    if ch = -1 then (ch, rest)
    else if ch ≥ 257 then (ch, rest)
    else if utf8_length ch.toNat = 1 then (ch, rest)
    else
      let n := utf8_length ch.toNat
      let bytes := ch.toNat :: (rest.take (n - 1)).map Int.toNat
      (((utf8_decode bytes : Nat) : Int) + 511, rest.drop (n - 1))

/-- The count-accumulating do-while loop of `keys_get` (keys.c lines
342-347), fuel-indexed: the body adds the previously read code as a
decimal digit, then reads the next code; the loop continues on digits
`1`-`9`, and on `0` only once the count is positive.  Returns the
accumulated count, the first non-continuing code and the rest of the
stream.  Fuel `input.length + 1` always suffices because each
iteration consumes one unit. -/
def countLoop : Nat → List Int → Nat → Int → Nat × Int × List Int
  | 0, input, count, ch => (count, ch, input)
  | fuel + 1, input, count, ch =>
    let count' := count * 10 + (ch - 48).toNat
    let r := keys_wgetch input
    if (r.1 = 48 ∧ count' > 0) ∨ (49 ≤ r.1 ∧ r.1 ≤ 57) then
      countLoop fuel r.2 count' r.1
    else (count', r.1, r.2)

/-- `keys_get` (keys.c lines 335-371) in its prefix-parsing mode (both
`count` and `reg` non-null): run the digit loop (a zero count defaults
to 1), then on the register prefix `"` read one code selecting register
1-9 (digit), 10-35 (letter) or 0, and read the final key; `KEY_RESIZE`
bypasses binding lookup, everything else resolves through
`keys_get_action`.  Returns (resolved action, count, register). -/
def keys_get (s : KState) (input : List Int) : Int × Nat × Nat :=
  let c := countLoop (input.length + 1) input 0 48
  let count := if c.1 = 0 then 1 else c.1
  let after :=
    if c.2.1 = 34 then
      let r1 := keys_wgetch c.2.2
      let reg := if 49 ≤ r1.1 ∧ r1.1 ≤ 57 then (r1.1 - 48).toNat
                 else if 97 ≤ r1.1 ∧ r1.1 ≤ 122 then (r1.1 - 97).toNat + 10
                 else 0
      let r2 := keys_wgetch r1.2
      (r2.1, reg)
    else (c.2.1, 0)
  (if after.1 = (410 : Int) then (410 : Int) else keys_get_action s after.1,
   count, after.2)

/-- The `binding` column of the built-in `keydef[]` table (keys.c lines
108-158), in order. -/
def keydef_bindings : List (List Nat) :=
  [str "ESC", str "SPC", str "@", str "?", str "q Q", str "s S ^S",
   str "R", str "c", str "p ^V", str "TAB", str "KEY_BTAB", str "i I",
   str "x X", str "g G", str "o O", str "C", str "^R", str "^A",
   str "^T", str "T ^H", str "t ^L", str "W ^K", str "w", str "M",
   str "m", str "Y", str "y", str "^N", str "^P", str "^G", str ":",
   str "l L RGT", str "h H LFT", str "j J DWN", str "k K UP", str "0",
   str "$", str "a A", str "d D", str "e E", str "v V RET", str "|",
   str "!", str "r", str "n N", str ">", str "+", str "-"]

/-- The whitespace-separated tokens of a default-binding string, as
produced by the space-skipping `sscanf("%s")` loop of
`keys_fill_missing`. -/
def splitTokens (l : List Nat) : List (List Nat) :=
  (l.splitOn 32).filter (fun t => t ≠ [])

/-- The inner token loop of `keys_fill_missing` for one action: assign
each token's code in order, aborting with the current state on the
first conflict; on success also report whether at least one token was
assigned. -/
def assignTokens (i : Nat) : KState → List (List Nat) → Except KState (KState × Bool)
  | s, [] => Except.ok (s, false)
  | s, t :: rest =>
    let r := keys_assign_binding s (keys_str2int t) i
    if r.2 = 0 then
      match assignTokens i r.1 rest with
      | Except.ok (s', _) => Except.ok (s', true)
      | Except.error e => Except.error e
    else Except.error r.1

/-- The outer action loop of `keys_fill_missing` (keys.c lines
795-827): actions with a nonempty list are skipped; a conflict aborts
with `-i`; otherwise the count of actions that received at least one
default is accumulated and returned. -/
def fillGo : KState → Nat → List Nat → KState × Int
  | s, assigned, [] => (s, (assigned : Int))
  | s, assigned, i :: rest =>
    if s.keys.getD i [] ≠ [] then fillGo s assigned rest
    else
      match assignTokens i s (splitTokens (keydef_bindings.getD i [])) with
      | Except.error s' => (s', -(i : Int))
      | Except.ok (s', did) => fillGo s' (assigned + if did then 1 else 0) rest

/-- `keys_fill_missing` (keys.c lines 795-827). -/
def keys_fill_missing (s : KState) : KState × Int :=
  fillGo s 0 (List.range NBVKEYS)

/-- The number of entries in the `keydef[]` array, the bound of the
reads in `keys_get_label` and `keys_get_binding`. -/
def keydefSize : Nat := NBVKEYS

/-- The `EXIT_IF` bounds guard shared by `keys_get_label` and
`keys_get_binding` (keys.c lines 263-279): the functions abort unless
this holds, and otherwise read `keydef[key]`. -/
def keydef_guard_passes (key : Int) : Bool :=
  decide (¬ (key < 0 ∨ key > (NBVKEYS : Int)))

/-- Branch selector of `keys_get_action` (keys.c lines 286-301): true
exactly when the dense `actions[]` array is indexed (at `pressed`). -/
def lookup_uses_dense (pressed : Int) : Bool :=
  decide (¬ pressed < 0 ∧ ¬ pressed > 511)

/-- Branch selector of `keys_assign_binding` (keys.c lines 432-448):
true exactly when the dense `actions[]` array is indexed (at `key`). -/
def assign_uses_dense (key : Int) : Bool :=
  decide (¬ key > 511 ∧ key > -1)

/-- Branch selector of `keys_remove_binding` (keys.c lines 450-468):
true exactly when the dense `actions[]` array is indexed (at `key`). -/
def remove_uses_dense (key : Int) : Bool :=
  decide (¬ key < 0 ∧ key ≤ 511)

/-- The virtual key a code is currently assigned to in the reverse map:
the `actions_ext` entry for codes above `KEY_MAX`, the dense `actions[]`
slot otherwise (`KEY_UNDEF` meaning unassigned). -/
def keyOwner (s : KState) (k : Int) : Option Nat :=
  if k > 511 then (s.actions_ext.find? (fun kv => kv.1 = k)).map Prod.snd
  else if s.actions.getD k.toNat KEY_UNDEF = KEY_UNDEF then none
  else some (s.actions.getD k.toNat KEY_UNDEF)

/-- "The KeyCode appears in the reverse map" of claim C1. -/
def inReverseMap (s : KState) (k : Int) : Bool :=
  (keyOwner s k).isSome

/-- The number of virtual keys whose forward list contains the name
`nm` — "appears in exactly one VirtualKey's forward list" is
`listsWithName s nm = 1`. -/
def listsWithName (s : KState) (nm : List Nat) : Nat :=
  ((List.range NBVKEYS).filter (fun v => some nm ∈ s.keys.getD v [])).length

/-- A valid KeyCode per the spec's three disjoint ranges: ordinary
`[1,127]`, pseudo `[PSEUDO_MIN, PSEUDO_MAX)`, extended
`[PSEUDO_MAX, ∞)`. -/
def validKeyCode (k : Int) : Prop :=
  (1 ≤ k ∧ k ≤ 127) ∨ (257 ≤ k ∧ k < 511) ∨ 511 ≤ k

/-- A canonically named key code: it has a name and the name converts
back to the same code.  These are exactly the codes the input layer
produces (named ordinary/pseudo codes, and extended codes of multi-byte
characters). -/
def canonicalKeyB (k : Int) : Bool :=
  match keys_int2str k with
  | none => false
  | some nm => decide (keys_str2int nm = k)

/-- The consistency property asserted by claim C1, verbatim: a (named,
valid) KeyCode appears in the reverse map iff its name appears in
exactly one VirtualKey's forward list. -/
def ConsistentClaim (s : KState) : Prop :=
  ∀ k : Int, validKeyCode k → ∀ nm, keys_int2str k = some nm →
    (inReverseMap s k = true ↔ listsWithName s nm = 1)

/-- The consistency property restricted to canonically named codes. -/
def ConsistentCanonical (s : KState) : Prop :=
  ∀ k : Int, canonicalKeyB k = true → ∀ nm, keys_int2str k = some nm →
    (inReverseMap s k = true ↔ listsWithName s nm = 1)

/-- A mutation step as quantified by claim C1: any successful
`keys_assign_binding` or any `keys_remove_binding` (removal always
succeeds), for a valid key code and virtual key. -/
inductive StepOrig : KState → KState → Prop
  | assign (s : KState) (k : Int) (v : Nat) (hk : validKeyCode k)
      (hv : v < NBVKEYS) (hsucc : (keys_assign_binding s k v).2 = 0) :
      StepOrig s (keys_assign_binding s k v).1
  | remove (s : KState) (k : Int) (v : Nat) (hk : validKeyCode k)
      (hv : v < NBVKEYS) :
      StepOrig s (keys_remove_binding s k v)

/-- States reachable from `keys_init` by the operations of claim C1. -/
def ReachableOrig (s : KState) : Prop :=
  Relation.ReflTransGen StepOrig initState s

/-- The restricted mutation steps of the amended claim C1: assigned
codes are canonically named, and a removal targets the virtual key the
code is currently assigned to (as the interactive configuration UI
does). -/
inductive StepR : KState → KState → Prop
  | assign (s : KState) (k : Int) (v : Nat) (hk : canonicalKeyB k = true)
      (hv : v < NBVKEYS) (hsucc : (keys_assign_binding s k v).2 = 0) :
      StepR s (keys_assign_binding s k v).1
  | remove (s : KState) (k : Int) (v : Nat) (hk : canonicalKeyB k = true)
      (hv : v < NBVKEYS) (hb : keyOwner s k = some v) :
      StepR s (keys_remove_binding s k v)

/-- States reachable from `keys_init` by the restricted operations. -/
def ReachableR (s : KState) : Prop :=
  Relation.ReflTransGen StepR initState s

/-- Structural well-formedness of the embedded state: the C array
sizes, unique `actions_ext` keys in the extended range, `actions[]`
values that are real virtual keys or `KEY_UNDEF`, and the null sentinel
only ever alone in a forward list. -/
def WFK (s : KState) : Prop :=
  s.keys.length = NBVKEYS ∧ s.actions.length = KEY_MAXC ∧
  (s.actions_ext.map Prod.fst).Nodup ∧
  (∀ kv ∈ s.actions_ext, 511 < kv.1 ∧ kv.2 < NBVKEYS) ∧
  (∀ a ∈ s.actions, a = KEY_UNDEF ∨ a < NBVKEYS) ∧
  (∀ l ∈ s.keys, l = [none] ∨ (none : Option (List Nat)) ∉ l)

/-- The inductive strengthening of the consistency invariant: the name
of a canonically named code occurs exactly once in its owner's forward
list and nowhere else, and nowhere at all while the code is
unassigned. -/
def InvMain (s : KState) : Prop :=
  ∀ k : Int, canonicalKeyB k = true → ∀ nm, keys_int2str k = some nm →
    (∀ v, keyOwner s k = some v →
      (s.keys.getD v []).count (some nm) = 1 ∧
        ∀ w, w ≠ v → (s.keys.getD w []).count (some nm) = 0) ∧
    (keyOwner s k = none → ∀ w, (s.keys.getD w []).count (some nm) = 0)

/-- The full invariant carried through the reachability induction. -/
def Inv (s : KState) : Prop := WFK s ∧ InvMain s

/-- The decimal value of a digit-code sequence, as accumulated by the
count loop of `keys_get`. -/
def decVal (ds : List Int) : Nat :=
  ds.foldl (fun a d => a * 10 + (d - 48).toNat) 0

/-- The register selected by the code following the `"` prefix
(keys.c lines 352-360): digits `1`-`9` give registers 1-9, letters
`a`-`z` give registers 10-35, anything else the default register 0;
without the prefix the register is 0. -/
def regOf (useReg : Bool) (rc : Int) : Nat :=
  if useReg then
    (if 49 ≤ rc ∧ rc ≤ 57 then (rc - 48).toNat
     else if 97 ≤ rc ∧ rc ≤ 122 then (rc - 97).toNat + 10
     else 0)
  else 0

example : keys_str2int (str "q") = 113 := by decide
example : keys_str2int (str "ESC") = 27 := by decide
example : keys_str2int (str "KEY_BTAB") = 353 := by decide
example : keys_str2int (str "^J") = 10 := by decide
example : keys_int2str 113 = some (str "q") := by decide
example : keys_int2str 576 = some (str "A") := by decide
example : keys_str2int (str "A") = 65 := by decide
example : keys_int2str 200 = none := by decide

example :
    (keys_assign_binding initState 113 0).2 = 0 ∧
    keys_get_action (keys_assign_binding initState 113 0).1 113 = 0 := by decide

example :
    keys_remove_binding (keys_assign_binding initState 113 0).1 113 0 ≠ initState := by
  decide

example :
    keys_remove_binding (keys_assign_binding initState 113 0).1 113 0 =
      { initState with keys := [none] :: List.replicate 47 [] } := by decide

example : keys_wgetch [0xE2, 0x82, 0xAC, 7] = (0x20AC + 511, [7]) := by decide

example :
    keys_get { initState with actions := (List.replicate 511 KEY_UNDEF).set 106 33 }
      [49, 50, 106] = (33, 12, 0) := by decide

example :
    keys_get { initState with actions := (List.replicate 511 KEY_UNDEF).set 112 8 }
      [34, 97, 112] = (8, 1, 10) := by decide

example : keys_check_missing initState = true := by decide

/-! ## Helper lemmas -/

theorem listUpd_length {α : Type} (l : List α) (i : Nat) (f : α → α) :
    (listUpd l i f).length = l.length := by
  induction l generalizing i with
  | nil => rfl
  | cons x t ih =>
    cases i with
    | zero => rfl
    | succ n => simpa [listUpd] using ih n

theorem listUpd_getD_self {α : Type} (l : List α) (i : Nat) (f : α → α) (d : α)
    (h : i < l.length) : (listUpd l i f).getD i d = f (l.getD i d) := by
  induction l generalizing i with
  | nil => simp at h
  | cons x t ih =>
    cases i with
    | zero => rfl
    | succ n =>
      simp only [listUpd, List.getD_cons_succ]
      exact ih n (by simpa using h)

theorem listUpd_getD_ne {α : Type} (l : List α) (i j : Nat) (f : α → α) (d : α)
    (h : j ≠ i) : (listUpd l i f).getD j d = l.getD j d := by
  induction l generalizing i j with
  | nil => rfl
  | cons x t ih =>
    cases i with
    | zero =>
      cases j with
      | zero => exact absurd rfl h
      | succ m => rfl
    | succ n =>
      cases j with
      | zero => rfl
      | succ m =>
        simp only [listUpd, List.getD_cons_succ]
        exact ih n m (fun he => h (by omega))

theorem listUpd_eq_self {α : Type} (l : List α) (i : Nat) (f : α → α) (d : α)
    (h : f (l.getD i d) = l.getD i d) : listUpd l i f = l := by
  induction l generalizing i with
  | nil => rfl
  | cons x t ih =>
    cases i with
    | zero => simpa [listUpd] using h
    | succ n =>
      simp only [listUpd, List.cons.injEq, true_and]
      exact ih n (by simpa using h)

theorem listUpd_mem {α : Type} {x : α} {l : List α} {i : Nat} {f : α → α}
    (h : x ∈ listUpd l i f) : x ∈ l ∨ ∃ y ∈ l, x = f y := by
  induction l generalizing i with
  | nil => simp [listUpd] at h
  | cons a t ih =>
    cases i with
    | zero =>
      rcases List.mem_cons.mp h with h1 | h1
      · exact Or.inr ⟨a, List.mem_cons_self a t, h1⟩
      · exact Or.inl (List.mem_cons_of_mem a h1)
    | succ n =>
      rcases List.mem_cons.mp h with h1 | h1
      · exact Or.inl (h1 ▸ List.mem_cons_self a t)
      · rcases ih h1 with h2 | ⟨y, hy, he⟩
        · exact Or.inl (List.mem_cons_of_mem a h2)
        · exact Or.inr ⟨y, List.mem_cons_of_mem a hy, he⟩

theorem removeFirstStr_not_mem (l : List (Option (List Nat)))
    (x : Option (List Nat)) (h : x ∉ l) : removeFirstStr l x = l := by
  induction l with
  | nil => rfl
  | cons a t ih =>
    have hax : ¬ a = x := fun he => h (he ▸ List.mem_cons_self a t)
    simp only [removeFirstStr, if_neg hax, List.cons.injEq, true_and]
    exact ih (fun hm => h (List.mem_cons_of_mem a hm))

theorem removeFirstStr_append_self (l : List (Option (List Nat)))
    (x : Option (List Nat)) (h : x ∉ l) :
    removeFirstStr (l ++ [x]) x = l := by
  induction l with
  | nil => simp [removeFirstStr]
  | cons a t ih =>
    have hax : ¬ a = x := fun he => h (he ▸ List.mem_cons_self a t)
    simp only [List.cons_append, removeFirstStr, if_neg hax, List.cons.injEq, true_and]
    exact ih (fun hm => h (List.mem_cons_of_mem a hm))

theorem removeFirstStr_sublist (l : List (Option (List Nat)))
    (x : Option (List Nat)) : List.Sublist (removeFirstStr l x) l := by
  induction l with
  | nil => exact List.Sublist.refl _
  | cons a t ih =>
    by_cases hax : a = x
    · simpa [removeFirstStr, hax] using List.sublist_cons_self a t
    · simpa [removeFirstStr, hax] using List.Sublist.cons₂ a ih

theorem count_removeFirstStr_ne (l : List (Option (List Nat)))
    (x y : Option (List Nat)) (h : y ≠ x) :
    (removeFirstStr l x).count y = l.count y := by
  induction l with
  | nil => rfl
  | cons a t ih =>
    by_cases hax : a = x
    · subst hax
      simp [removeFirstStr, List.count_cons, h]
    · simp [removeFirstStr, hax, List.count_cons, ih]

theorem count_removeFirstStr_self (l : List (Option (List Nat)))
    (x : Option (List Nat)) (h : x ∈ l) :
    (removeFirstStr l x).count x = l.count x - 1 := by
  induction l with
  | nil => simp at h
  | cons a t ih =>
    by_cases hax : a = x
    · subst hax
      simp [removeFirstStr, List.count_cons]
    · have hm : x ∈ t := by
        rcases List.mem_cons.mp h with h1 | h1
        · exact absurd h1.symm hax
        · exact h1
      have hc : 0 < t.count x := List.count_pos_iff.mpr hm
      simp only [removeFirstStr, if_neg hax, List.count_cons, ih hm]
      have hne : ¬ (x = a) := fun he => hax he.symm
      simp [hne]
      omega

theorem removeFirstExt_sublist (l : List (Int × Nat)) (k : Int) :
    List.Sublist (removeFirstExt l k) l := by
  induction l with
  | nil => exact List.Sublist.refl _
  | cons a t ih =>
    by_cases hak : a.1 = k
    · simpa [removeFirstExt, hak] using List.sublist_cons_self a t
    · simpa [removeFirstExt, hak] using List.Sublist.cons₂ a ih

theorem removeFirstExt_append_self (l : List (Int × Nat)) (k : Int) (v : Nat)
    (h : ∀ kv ∈ l, kv.1 ≠ k) : removeFirstExt (l ++ [(k, v)]) k = l := by
  induction l with
  | nil => simp [removeFirstExt]
  | cons a t ih =>
    have hak : ¬ a.1 = k := h a (List.mem_cons_self a t)
    simp only [List.cons_append, removeFirstExt, if_neg hak, List.cons.injEq, true_and]
    exact ih (fun kv hm => h kv (List.mem_cons_of_mem a hm))

theorem find?_removeFirstExt_self (l : List (Int × Nat)) (k : Int)
    (h : (l.map Prod.fst).Nodup) :
    (removeFirstExt l k).find? (fun kv => kv.1 = k) = none := by
  induction l with
  | nil => rfl
  | cons a t ih =>
    have hnd : (t.map Prod.fst).Nodup := (List.nodup_cons.mp (by simpa using h)).2
    by_cases hak : a.1 = k
    · have hnm : a.1 ∉ t.map Prod.fst := (List.nodup_cons.mp (by simpa using h)).1
      simp only [removeFirstExt, if_pos hak]
      rw [List.find?_eq_none]
      intro kv hkv
      simp only [decide_eq_true_eq]
      intro he
      exact hnm (by
        rw [hak, ← he]
        exact List.mem_map_of_mem Prod.fst hkv)
    · simp only [removeFirstExt, if_neg hak, List.find?_cons]
      have : (decide (a.1 = k)) = false := by simpa using hak
      rw [this]
      exact ih hnd

theorem find?_removeFirstExt_ne (l : List (Int × Nat)) (k k' : Int)
    (h : k' ≠ k) :
    (removeFirstExt l k).find? (fun kv => kv.1 = k') =
      l.find? (fun kv => kv.1 = k') := by
  induction l with
  | nil => rfl
  | cons a t ih =>
    by_cases hak : a.1 = k
    · have hkk : (decide (k = k')) = false := by
        simp only [decide_eq_false_iff_not]
        exact fun he => h he.symm
      simp [removeFirstExt, hak, List.find?_cons, hkk]
    · simp only [removeFirstExt, if_neg hak, List.find?_cons]
      cases hd : (decide (a.1 = k')) with
      | true => rfl
      | false => exact ih

theorem count_add_if_undefined (l : List (Option (List Nat))) (nm : List Nat) :
    (add_if_undefined l).count (some nm) = l.count (some nm) := by
  by_cases h : l = []
  · subst h; simp [add_if_undefined]
  · simp [add_if_undefined, h]

theorem count_del_if_undefined (l : List (Option (List Nat))) (nm : List Nat) :
    (del_if_undefined l).count (some nm) = l.count (some nm) := by
  match l with
  | [] => rfl
  | none :: t => simp [del_if_undefined, List.count_cons]
  | some a :: t => rfl

theorem set_eq_self_of_getD (l : List Nat) (i : Nat) (a d : Nat)
    (h : l.getD i d = a) : l.set i a = l := by
  induction l generalizing i with
  | nil => rfl
  | cons x t ih =>
    cases i with
    | zero => simpa using h.symm
    | succ n =>
      simp only [List.set_cons_succ, List.cons.injEq, true_and]
      exact ih n (by simpa using h)

theorem utf8_decode_encode (c : Nat) (h : c ≤ 1114111) :
    utf8_decode (utf8_encode c) = c := by
  unfold utf8_encode
  split_ifs with h1 h2 h3
  · simp only [utf8_decode, utf8_length]
    split_ifs <;> omega
  · simp only [utf8_decode, utf8_length, List.getD_cons_zero, List.getD_cons_succ]
    split_ifs <;> omega
  · simp only [utf8_decode, utf8_length, List.getD_cons_zero, List.getD_cons_succ]
    split_ifs <;> omega
  · simp only [utf8_decode, utf8_length, List.getD_cons_zero, List.getD_cons_succ]
    split_ifs <;> omega

theorem utf8_encode_ne_ascii (c : Nat) (hc : 128 ≤ c) (l : List Nat)
    (hl : ∀ b ∈ l, b < 128) : utf8_encode c ≠ l := by
  unfold utf8_encode
  split_ifs with h1 h2 h3
  · omega
  · intro he
    have := hl _ (he ▸ List.mem_cons_self _ _)
    omega
  · intro he
    have := hl _ (he ▸ List.mem_cons_self _ _)
    omega
  · intro he
    have := hl _ (he ▸ List.mem_cons_self _ _)
    omega

theorem keynames_ascii : ∀ n < 511, ∀ b ∈ keynames n, b < 128 := by decide

theorem keys_str2int_utf8 (c : Nat) (h1 : 128 ≤ c) (h2 : c ≤ 1114111) :
    keys_str2int (utf8_encode c) = (c : Int) + 511 := by
  have hne : ∀ l : List Nat, (∀ b ∈ l, b < 128) → ¬ utf8_encode c = l :=
    fun l hl => utf8_encode_ne_ascii c h1 l hl
  have hfind : ∀ a n, 1 ≤ a → a + n ≤ 511 →
      (List.range' a n).find? (fun i => keynames i = utf8_encode c) = none := by
    intro a n ha hn
    rw [List.find?_eq_none]
    intro i hi
    have hib := List.mem_range'_1.mp hi
    simp only [decide_eq_true_eq]
    intro hEq
    exact hne (keynames i) (fun b hb => keynames_ascii i (by omega) b hb) hEq.symm
  unfold keys_str2int
  rw [if_neg (hne (str "^J") (by decide)), if_neg (hne (str "KEY_HOME") (by decide)),
    if_neg (hne (str "KEY_END") (by decide)), hfind 1 127 (by omega) (by omega),
    hfind 257 254 (by omega) (by omega), utf8_decode_encode c h2]

/-- The dense half of the name round-trip: every named code below
`KEY_MAX` converts back from its cached name, checked exhaustively over
the keyname table. -/
theorem keys_str2int_keynames :
    ∀ n < 511, keynames n ≠ [] → keys_str2int (keynames n) = (n : Int) := by
  decide

theorem getD_set_self (l : List Nat) (i : Nat) (a d : Nat) (h : i < l.length) :
    (l.set i a).getD i d = a := by
  induction l generalizing i with
  | nil => simp at h
  | cons x t ih =>
    cases i with
    | zero => rfl
    | succ n =>
      simp only [List.set_cons_succ, List.getD_cons_succ]
      exact ih n (by simpa using h)

theorem getD_set_ne (l : List Nat) (i j : Nat) (a d : Nat) (h : j ≠ i) :
    (l.set i a).getD j d = l.getD j d := by
  induction l generalizing i j with
  | nil => rfl
  | cons x t ih =>
    cases i with
    | zero =>
      cases j with
      | zero => exact absurd rfl h
      | succ m => rfl
    | succ n =>
      cases j with
      | zero => rfl
      | succ m =>
        simp only [List.set_cons_succ, List.getD_cons_succ]
        exact ih n m (fun he => h (by omega))

theorem listUpd_listUpd {α : Type} (l : List α) (i : Nat) (f g : α → α) :
    listUpd (listUpd l i f) i g = listUpd l i (fun x => g (f x)) := by
  induction l generalizing i with
  | nil => rfl
  | cons x t ih =>
    cases i with
    | zero => rfl
    | succ n => simpa [listUpd] using ih n

theorem removeFirstExt_not_mem (l : List (Int × Nat)) (k : Int)
    (h : ∀ kv ∈ l, kv.1 ≠ k) : removeFirstExt l k = l := by
  induction l with
  | nil => rfl
  | cons a t ih =>
    have hak : ¬ a.1 = k := h a (List.mem_cons_self a t)
    simp only [removeFirstExt, if_neg hak, List.cons.injEq, true_and]
    exact ih (fun kv hm => h kv (List.mem_cons_of_mem a hm))

theorem KState_ext (a b : KState) (h1 : a.keys = b.keys)
    (h2 : a.actions = b.actions) (h3 : a.actions_ext = b.actions_ext) :
    a = b := by
  cases a
  cases b
  cases h1
  cases h2
  cases h3
  rfl

theorem add_key_str_actions (s : KState) (action : Nat) (key : Int) :
    (add_key_str s action key).actions = s.actions := by
  unfold add_key_str
  split_ifs <;> rfl

theorem add_key_str_ext (s : KState) (action : Nat) (key : Int) :
    (add_key_str s action key).actions_ext = s.actions_ext := by
  unfold add_key_str
  split_ifs <;> rfl

theorem add_key_str_keys (s : KState) (action : Nat) (key : Int)
    (h : ¬ action > NBVKEYS) :
    (add_key_str s action key).keys =
      listUpd s.keys action (fun l => del_if_undefined l ++ [keys_int2str key]) := by
  unfold add_key_str
  rw [if_neg h]

theorem del_key_str_actions (s : KState) (action : Nat) (key : Int) :
    (del_key_str s action key).actions = s.actions := by
  unfold del_key_str
  split_ifs <;> rfl

theorem del_key_str_ext (s : KState) (action : Nat) (key : Int) :
    (del_key_str s action key).actions_ext = s.actions_ext := by
  unfold del_key_str
  split_ifs <;> rfl

theorem del_key_str_keys (s : KState) (action : Nat) (key : Int)
    (h : ¬ action > NBVKEYS) :
    (del_key_str s action key).keys =
      listUpd s.keys action
        (fun l => add_if_undefined (removeFirstStr l (keys_int2str key))) := by
  unfold del_key_str
  rw [if_neg h]

theorem keys_assign_binding_ext (s : KState) (k : Int) (v : Nat) (hgt : k > 511)
    (hf : s.actions_ext.find? (fun kv => kv.1 = k) = none) :
    keys_assign_binding s k v =
      (add_key_str { s with actions_ext := s.actions_ext ++ [(k, v)] } v k, 0) := by
  unfold keys_assign_binding
  rw [if_pos hgt, if_neg (by rw [hf]; simp)]

theorem keys_assign_binding_ext_conflict (s : KState) (k : Int) (v : Nat)
    (hgt : k > 511) (hf : (s.actions_ext.find? (fun kv => kv.1 = k)).isSome) :
    keys_assign_binding s k v = (s, 1) := by
  unfold keys_assign_binding
  rw [if_pos hgt, if_pos hf]

theorem keys_assign_binding_dense (s : KState) (k : Int) (v : Nat)
    (hgt : ¬ k > 511) (hge : k > -1)
    (hf : s.actions.getD k.toNat KEY_UNDEF = KEY_UNDEF) :
    keys_assign_binding s k v =
      (add_key_str { s with actions := s.actions.set k.toNat v } v k, 0) := by
  unfold keys_assign_binding
  rw [if_neg hgt, if_pos hge, if_neg (by rw [hf]; simp)]

theorem keys_assign_binding_dense_conflict (s : KState) (k : Int) (v : Nat)
    (hgt : ¬ k > 511) (hge : k > -1)
    (hf : s.actions.getD k.toNat KEY_UNDEF ≠ KEY_UNDEF) :
    keys_assign_binding s k v = (s, 1) := by
  unfold keys_assign_binding
  rw [if_neg hgt, if_pos hge, if_pos hf]

theorem keys_assign_binding_success_ext (s : KState) (k : Int) (v : Nat)
    (hgt : k > 511) (hsucc : (keys_assign_binding s k v).2 = 0) :
    s.actions_ext.find? (fun kv => kv.1 = k) = none := by
  cases hf : s.actions_ext.find? (fun kv => kv.1 = k) with
  | none => rfl
  | some kv =>
    rw [keys_assign_binding_ext_conflict s k v hgt (by rw [hf]; rfl)] at hsucc
    simp at hsucc

theorem keys_assign_binding_success_dense (s : KState) (k : Int) (v : Nat)
    (hgt : ¬ k > 511) (hge : k > -1)
    (hsucc : (keys_assign_binding s k v).2 = 0) :
    s.actions.getD k.toNat KEY_UNDEF = KEY_UNDEF := by
  by_cases hf : s.actions.getD k.toNat KEY_UNDEF = KEY_UNDEF
  · exact hf
  · rw [keys_assign_binding_dense_conflict s k v hgt hge hf] at hsucc
    simp at hsucc

theorem keys_remove_binding_dense (s : KState) (k : Int) (v : Nat)
    (h0 : ¬ k < 0) (h1 : k ≤ 511) :
    keys_remove_binding s k v =
      del_key_str { s with actions := s.actions.set k.toNat KEY_UNDEF } v k := by
  unfold keys_remove_binding
  rw [if_neg h0, if_pos h1]

theorem keys_remove_binding_ext (s : KState) (k : Int) (v : Nat)
    (h0 : ¬ k < 0) (h1 : ¬ k ≤ 511) :
    keys_remove_binding s k v =
      del_key_str { s with actions_ext := removeFirstExt s.actions_ext k } v k := by
  unfold keys_remove_binding
  rw [if_neg h0, if_neg h1]

theorem keys_get_action_dense (s : KState) (k : Int) (h0 : ¬ k < 0)
    (h1 : ¬ k > 511) :
    keys_get_action s k = (s.actions.getD k.toNat KEY_UNDEF : Int) := by
  unfold keys_get_action
  rw [if_neg h0, if_neg h1]

theorem keys_get_action_ext (s : KState) (k : Int) (h1 : k > 511) :
    keys_get_action s k =
      (match s.actions_ext.find? (fun kv => kv.1 = k) with
       | some kv => (kv.2 : Int)
       | none => (KEY_UNDEF : Int)) := by
  unfold keys_get_action
  rw [if_neg (by omega), if_pos h1]

/-- C10 (refuting the claim): the bounds guard of `keys_get_label` and
`keys_get_binding` accepts the argument `NBVKEYS` itself — the guard
only aborts on `key > NBVKEYS` — yet `NBVKEYS` is not a valid index of
the `keydef[]` table of size `keydefSize = NBVKEYS`, so the read
`keydef[NBVKEYS]` is out of bounds.  The guard therefore does not
reject every argument outside `[0, NBVKEYS)`. -/
theorem keydef_guard_off_by_one :
    keydef_guard_passes (NBVKEYS : Int) = true ∧ ¬ (NBVKEYS < keydefSize) ∧
    keydef_guard_passes (-1) = false ∧ keydef_guard_passes 49 = false := by
  decide

/-- C7 (refuting the claim at the range boundary): the extended range
starts at `PSEUDO_MAX = KEY_MAX = 511`, but for the code `511` all
three operations — `keys_get_action`, `keys_assign_binding`,
`keys_remove_binding` — select the dense-array path (`pressed > KEY_MAX`
/ `key > KEY_MAX` / `key <= KEY_MAX`), and `511` is not a valid index
of `actions[]` of size `KEY_MAXC = 511`: the dense array is indexed at
`PSEUDO_MAX`, one slot past the end.  Codes strictly above `511` do
take the extended path. -/
theorem extended_boundary_uses_dense_array :
    lookup_uses_dense 511 = true ∧ assign_uses_dense 511 = true ∧
    remove_uses_dense 511 = true ∧ ¬ (511 < KEY_MAXC) ∧
    lookup_uses_dense 512 = false ∧ assign_uses_dense 512 = false ∧
    remove_uses_dense 512 = false := by
  decide

/-- C4 (counterexample): the extended-range code `576 = PSEUDO_MAX + 65`
has the name `"A"` (the UTF-8 re-encoding of code point 65), but
`keys_str2int` resolves `"A"` through the cached name table to the
ordinary code `65`, not back to `576`: the round-trip fails for
extended codes whose code point collides with a cached name. -/
theorem name_roundtrip_counterexample :
    keys_int2str 576 = some (str "A") ∧ keys_str2int (str "A") = 65 ∧
    ((65 : Int) ≠ 576) := by
  decide

/-- C4 (amended): the name round-trip `keys_str2int (keys_int2str k) = k`
holds for every named code in the ordinary/pseudo range `[0, KEY_MAX)`
and for every extended code whose code point is an actual multi-byte
character (`k ≥ KEY_MAX + 0x80`, code point at most 0x10FFFF) — the only
extended codes the input layer produces. -/
theorem name_roundtrip (k : Int)
    (hk : (0 ≤ k ∧ k < 511) ∨ (639 ≤ k ∧ k ≤ 511 + 1114111))
    (nm : List Nat) (hnm : keys_int2str k = some nm) :
    keys_str2int nm = k := by
  rcases hk with ⟨hk0, hk1⟩ | ⟨hk0, hk1⟩
  · unfold keys_int2str at hnm
    rw [if_neg (by omega), if_pos (by exact_mod_cast hk1)] at hnm
    by_cases hemp : keynames k.toNat = []
    · rw [if_pos hemp] at hnm
      exact absurd hnm (by simp)
    · rw [if_neg hemp] at hnm
      have hlt : k.toNat < 511 := by omega
      have := keys_str2int_keynames k.toNat hlt hemp
      rw [← Option.some.injEq] at hnm
      have hnm' : nm = keynames k.toNat := by
        cases hnm
        rfl
      rw [hnm', this]
      omega
  · unfold keys_int2str at hnm
    rw [if_neg (by omega), if_neg (by omega)] at hnm
    have hc0 : (k - 511).toNat ≠ 0 := by omega
    unfold utf8_encode_cstr at hnm
    rw [if_neg hc0] at hnm
    have hnm' : nm = utf8_encode (k - 511).toNat := by
      cases hnm
      rfl
    rw [hnm', keys_str2int_utf8 (k - 511).toNat (by omega) (by omega)]
    omega

/-- C4 (witness): the round-trip at the ordinary code `113` (`"q"`) and
at the extended code `639 = PSEUDO_MAX + 0x80`. -/
theorem name_roundtrip_witness :
    keys_str2int (str "q") = 113 ∧ keys_str2int [0xC2, 0x80] = 639 := by
  constructor
  · exact name_roundtrip 113 (Or.inl (by decide)) (str "q") (by decide)
  · exact name_roundtrip 639 (Or.inr (by decide)) [0xC2, 0x80] (by decide)

/-- C2: on a well-formed state, for any key code on which the reverse
map is defined (nonnegative and not the out-of-bounds boundary
`KEY_MAX`, cf. C7) and distinct virtual keys `v1`, `v2`, once
`assign(k, v1)` has succeeded a subsequent `assign(k, v2)` returns the
conflict result 1, changes nothing, and `lookup(k)` still yields
`v1`. -/
theorem assign_conflict_second_rejected (s : KState) (k : Int) (v1 v2 : Nat)
    (hlen : s.actions.length = KEY_MAXC) (hk0 : 0 ≤ k) (hk1 : k ≠ 511)
    (hv1 : v1 < NBVKEYS) (hv2 : v2 < NBVKEYS) (hne : v1 ≠ v2)
    (hsucc : (keys_assign_binding s k v1).2 = 0) :
    (keys_assign_binding (keys_assign_binding s k v1).1 k v2).2 = 1 ∧
    (keys_assign_binding (keys_assign_binding s k v1).1 k v2).1 =
      (keys_assign_binding s k v1).1 ∧
    keys_get_action (keys_assign_binding s k v1).1 k = (v1 : Int) := by
  by_cases hgt : k > 511
  · have hf := keys_assign_binding_success_ext s k v1 hgt hsucc
    have hs1 := keys_assign_binding_ext s k v1 hgt hf
    have hext1 : (keys_assign_binding s k v1).1.actions_ext =
        s.actions_ext ++ [(k, v1)] := by
      rw [hs1, add_key_str_ext]
    have hfind1 : (keys_assign_binding s k v1).1.actions_ext.find?
        (fun kv => kv.1 = k) = some (k, v1) := by
      rw [hext1, List.find?_append, hf]
      simp [List.find?]
    have hconf := keys_assign_binding_ext_conflict (keys_assign_binding s k v1).1
      k v2 hgt (by rw [hfind1]; rfl)
    refine ⟨by rw [hconf], by rw [hconf], ?_⟩
    rw [keys_get_action_ext _ k hgt, hfind1]
  · have hge : k > -1 := by omega
    have hf := keys_assign_binding_success_dense s k v1 hgt hge hsucc
    have hs1 := keys_assign_binding_dense s k v1 hgt hge hf
    have hact1 : (keys_assign_binding s k v1).1.actions =
        s.actions.set k.toNat v1 := by
      rw [hs1, add_key_str_actions]
    have hget : (keys_assign_binding s k v1).1.actions.getD k.toNat KEY_UNDEF = v1 := by
      rw [hact1]
      refine getD_set_self s.actions k.toNat v1 KEY_UNDEF ?_
      rw [hlen]
      simp only [KEY_MAXC]
      omega
    have hv1u : v1 ≠ KEY_UNDEF := by
      simp only [NBVKEYS] at hv1
      simp only [KEY_UNDEF]
      omega
    have hconf := keys_assign_binding_dense_conflict (keys_assign_binding s k v1).1
      k v2 hgt hge (by rw [hget]; exact hv1u)
    refine ⟨by rw [hconf], by rw [hconf], ?_⟩
    rw [keys_get_action_dense _ k (by omega) hgt, hget]

/-- C2 (witness): on the freshly initialized table, assigning `"q"`
(113) to action 0 succeeds, and a second assignment of 113 to action 1
is rejected with no state change while the lookup still yields 0. -/
theorem assign_conflict_second_rejected_witness :
    (keys_assign_binding (keys_assign_binding initState 113 0).1 113 1).2 = 1 ∧
    (keys_assign_binding (keys_assign_binding initState 113 0).1 113 1).1 =
      (keys_assign_binding initState 113 0).1 ∧
    keys_get_action (keys_assign_binding initState 113 0).1 113 = ((0 : Nat) : Int) :=
  assign_conflict_second_rejected initState 113 0 1 (by decide) (by decide)
    (by decide) (by decide) (by decide) (by decide) (by decide)

/-- C5 (counterexample): on the pristine table — where action 0 is in
the missing state, its list empty — assigning `"q"` (113) succeeds, but
removing it again does not restore the prior state: the round trip
leaves the explicitly-undefined sentinel where the list was empty. -/
theorem assign_remove_not_roundtrip :
    (keys_assign_binding initState 113 0).2 = 0 ∧
    keys_remove_binding (keys_assign_binding initState 113 0).1 113 0 ≠
      initState := by
  decide

/-- C5 (amended): a successful `assign(k, v)` followed by
`remove(k, v)` restores the prior state for a named key code (not the
`KEY_MAX` boundary), provided the prior forward list of `v` was not in
the missing state and did not already contain `k`'s name or a stray
sentinel: either it was exactly the undefined sentinel, or it was a
nonempty sentinel-free list without `k`'s name. -/
theorem assign_remove_roundtrip (s : KState) (k : Int) (v : Nat)
    (hk0 : 0 ≤ k) (hk1 : k ≠ 511) (hv : v < NBVKEYS)
    (hname : keys_int2str k ≠ none)
    (hsucc : (keys_assign_binding s k v).2 = 0)
    (hlist : s.keys.getD v [] = [none] ∨
      (s.keys.getD v [] ≠ [] ∧ (none : Option (List Nat)) ∉ s.keys.getD v [] ∧
        keys_int2str k ∉ s.keys.getD v [])) :
    keys_remove_binding (keys_assign_binding s k v).1 k v = s := by
  have hvg : ¬ v > NBVKEYS := by omega
  have hkeyfun : add_if_undefined (removeFirstStr
      (del_if_undefined (s.keys.getD v []) ++ [keys_int2str k]) (keys_int2str k)) =
      s.keys.getD v [] := by
    rcases hlist with h | ⟨h1, h2, h3⟩
    · rw [h]
      simp [del_if_undefined, removeFirstStr, add_if_undefined]
    · have hd : del_if_undefined (s.keys.getD v []) = s.keys.getD v [] := by
        cases hl : s.keys.getD v [] with
        | nil => exact absurd hl h1
        | cons a t =>
          cases a with
          | none => exact absurd (hl ▸ List.mem_cons_self none t) (hl ▸ h2)
          | some nm => rfl
      rw [hd, removeFirstStr_append_self _ _ h3]
      unfold add_if_undefined
      exact if_neg h1
  by_cases hgt : k > 511
  · have hf := keys_assign_binding_success_ext s k v hgt hsucc
    have hs1 := keys_assign_binding_ext s k v hgt hf
    rw [hs1, keys_remove_binding_ext _ k v (by omega) (by omega)]
    refine KState_ext _ _ ?_ ?_ ?_
    · rw [del_key_str_keys _ _ _ hvg]
      have : ({ add_key_str { s with actions_ext := s.actions_ext ++ [(k, v)] } v k
          with actions_ext := removeFirstExt (add_key_str { s with
            actions_ext := s.actions_ext ++ [(k, v)] } v k).actions_ext k }).keys =
          listUpd s.keys v (fun l => del_if_undefined l ++ [keys_int2str k]) := by
        show (add_key_str { s with actions_ext := s.actions_ext ++ [(k, v)] } v k).keys = _
        rw [add_key_str_keys _ _ _ hvg]
      rw [this, listUpd_listUpd]
      exact listUpd_eq_self s.keys v _ [] hkeyfun
    · rw [del_key_str_actions]
      show (add_key_str { s with actions_ext := s.actions_ext ++ [(k, v)] } v k).actions = _
      rw [add_key_str_actions]
    · rw [del_key_str_ext]
      show removeFirstExt (add_key_str { s with
        actions_ext := s.actions_ext ++ [(k, v)] } v k).actions_ext k = _
      rw [add_key_str_ext]
      show removeFirstExt (s.actions_ext ++ [(k, v)]) k = _
      refine removeFirstExt_append_self s.actions_ext k v ?_
      intro kv hm
      have := List.find?_eq_none.mp hf kv hm
      simpa using this
  · have hge : k > -1 := by omega
    have hf := keys_assign_binding_success_dense s k v hgt hge hsucc
    have hs1 := keys_assign_binding_dense s k v hgt hge hf
    rw [hs1, keys_remove_binding_dense _ k v (by omega) (by omega)]
    refine KState_ext _ _ ?_ ?_ ?_
    · rw [del_key_str_keys _ _ _ hvg]
      have : ({ add_key_str { s with actions := s.actions.set k.toNat v } v k
          with actions := ((add_key_str { s with
            actions := s.actions.set k.toNat v } v k).actions.set k.toNat
              KEY_UNDEF) }).keys =
          listUpd s.keys v (fun l => del_if_undefined l ++ [keys_int2str k]) := by
        show (add_key_str { s with actions := s.actions.set k.toNat v } v k).keys = _
        rw [add_key_str_keys _ _ _ hvg]
      rw [this, listUpd_listUpd]
      exact listUpd_eq_self s.keys v _ [] hkeyfun
    · rw [del_key_str_actions]
      show (add_key_str { s with actions := s.actions.set k.toNat v } v
          k).actions.set k.toNat KEY_UNDEF = _
      rw [add_key_str_actions]
      show (s.actions.set k.toNat v).set k.toNat KEY_UNDEF = _
      rw [List.set_set]
      exact set_eq_self_of_getD s.actions k.toNat KEY_UNDEF KEY_UNDEF hf
    · rw [del_key_str_ext]
      show (add_key_str { s with actions := s.actions.set k.toNat v } v
          k).actions_ext = _
      rw [add_key_str_ext]

/-- C5 (witness): on a table where action 0 is explicitly undefined
(its list holds exactly the sentinel), assigning `"q"` (113) and then
removing it restores the state — the sentinel is re-established. -/
theorem assign_remove_roundtrip_witness :
    keys_remove_binding
        (keys_assign_binding
          { initState with keys := [none] :: List.replicate 47 [] } 113 0).1 113 0 =
      { initState with keys := [none] :: List.replicate 47 [] } :=
  assign_remove_roundtrip
    { initState with keys := [none] :: List.replicate 47 [] } 113 0
    (by decide) (by decide) (by decide) (by decide) (by decide) (by decide)

/-- C6 (counterexample): the key code 113 is bound to nothing in the
freshly initialized table, yet `keys_remove_binding 113 0` is not a
no-op: it inserts the explicitly-undefined sentinel into action 0's
empty (missing) forward list. -/
theorem remove_unbound_changes_state :
    keyOwner initState 113 = none ∧
    keys_remove_binding initState 113 0 ≠ initState := by
  decide

/-- C6 (amended): removing a key code bound to no virtual key is a
no-op provided the code is named and in the well-defined range, and the
target's forward list is neither missing (empty) nor holds a sentinel
or the code's name; removing an unbound code from a missing list
inserts the sentinel instead (cf. the counterexample). -/
theorem remove_unbound_noop (s : KState) (k : Int) (v : Nat)
    (hk0 : 0 ≤ k) (hk1 : k ≠ 511) (hv : v < NBVKEYS)
    (hname : keys_int2str k ≠ none)
    (hunbound : keyOwner s k = none)
    (hne : s.keys.getD v [] ≠ [])
    (hnone : (none : Option (List Nat)) ∉ s.keys.getD v [])
    (hnm : keys_int2str k ∉ s.keys.getD v []) :
    keys_remove_binding s k v = s := by
  have hvg : ¬ v > NBVKEYS := by omega
  have hkeyfun : add_if_undefined (removeFirstStr (s.keys.getD v [])
      (keys_int2str k)) = s.keys.getD v [] := by
    rw [removeFirstStr_not_mem _ _ hnm]
    unfold add_if_undefined
    exact if_neg hne
  by_cases hgt : k > 511
  · unfold keyOwner at hunbound
    rw [if_pos hgt] at hunbound
    have hf : s.actions_ext.find? (fun kv => kv.1 = k) = none :=
      Option.map_eq_none'.mp hunbound
    rw [keys_remove_binding_ext _ k v (by omega) (by omega)]
    refine KState_ext _ _ ?_ ?_ ?_
    · rw [del_key_str_keys _ _ _ hvg]
      show listUpd s.keys v _ = s.keys
      exact listUpd_eq_self s.keys v _ [] hkeyfun
    · rw [del_key_str_actions]
    · rw [del_key_str_ext]
      show removeFirstExt s.actions_ext k = _
      refine removeFirstExt_not_mem s.actions_ext k ?_
      intro kv hm
      have := List.find?_eq_none.mp hf kv hm
      simpa using this
  · unfold keyOwner at hunbound
    rw [if_neg hgt] at hunbound
    have hf : s.actions.getD k.toNat KEY_UNDEF = KEY_UNDEF := by
      by_cases h : s.actions.getD k.toNat KEY_UNDEF = KEY_UNDEF
      · exact h
      · rw [if_neg h] at hunbound
        exact absurd hunbound (by simp)
    rw [keys_remove_binding_dense _ k v (by omega) (by omega)]
    refine KState_ext _ _ ?_ ?_ ?_
    · rw [del_key_str_keys _ _ _ hvg]
      show listUpd s.keys v _ = s.keys
      exact listUpd_eq_self s.keys v _ [] hkeyfun
    · rw [del_key_str_actions]
      show s.actions.set k.toNat KEY_UNDEF = _
      exact set_eq_self_of_getD s.actions k.toNat KEY_UNDEF KEY_UNDEF hf
    · rw [del_key_str_ext]

/-- C6 (witness): with action 0 bound to `"Q"` only, removing the
unbound code 113 (`"q"`) leaves the state untouched. -/
theorem remove_unbound_noop_witness :
    keys_remove_binding
        { initState with keys := [some (str "Q")] :: List.replicate 47 [] } 113 0 =
      { initState with keys := [some (str "Q")] :: List.replicate 47 [] } :=
  remove_unbound_noop
    { initState with keys := [some (str "Q")] :: List.replicate 47 [] } 113 0
    (by decide) (by decide) (by decide) (by decide) (by decide) (by decide)
    (by decide) (by decide)

theorem keys_wgetch_unit (ch : Int) (rest : List Int)
    (h : ch = -1 ∨ (0 ≤ ch ∧ ch < 128) ∨ 257 ≤ ch) :
    keys_wgetch (ch :: rest) = (ch, rest) := by
  simp only [keys_wgetch]
  rcases h with h | ⟨h1, h2⟩ | h
  · rw [if_pos h]
  · rw [if_neg (by omega), if_neg (by omega),
      if_pos (show utf8_length ch.toNat = 1 by
        unfold utf8_length
        rw [if_pos (by omega)])]
  · rw [if_neg (by omega), if_pos (by omega)]

theorem countLoop_run (ds : List Int) (fuel count : Nat) (ch t : Int)
    (rest : List Int)
    (hds : ∀ d ∈ ds, 48 ≤ d ∧ d ≤ 57)
    (hch0 : 48 ≤ ch) (hch1 : ch ≤ 57)
    (hpos : 0 < count * 10 + (ch - 48).toNat)
    (hfuel : ds.length < fuel)
    (ht : ¬ (48 ≤ t ∧ t ≤ 57))
    (htu : t = -1 ∨ (0 ≤ t ∧ t < 128) ∨ 257 ≤ t) :
    countLoop fuel (ds ++ t :: rest) count ch =
      (ds.foldl (fun a d => a * 10 + (d - 48).toNat)
        (count * 10 + (ch - 48).toNat), t, rest) := by
  induction ds generalizing fuel count ch with
  | nil =>
    cases fuel with
    | zero => exact absurd hfuel (by simp)
    | succ f =>
      simp only [List.nil_append, countLoop, keys_wgetch_unit t rest htu]
      rw [if_neg (by omega)]
      simp
  | cons d ds' ih =>
    have hd := hds d (List.mem_cons_self d ds')
    cases fuel with
    | zero => exact absurd hfuel (by simp)
    | succ f =>
      simp only [List.cons_append, countLoop,
        keys_wgetch_unit d (ds' ++ t :: rest) (Or.inr (Or.inl ⟨by omega, by omega⟩))]
      rw [if_pos (by omega)]
      rw [ih f (count * 10 + (ch - 48).toNat) d
        (fun x hx => hds x (List.mem_cons_of_mem d hx)) (by omega) (by omega)
        (by omega) (by simpa using Nat.lt_of_succ_lt_succ (by simpa using hfuel))]
      simp [List.foldl_cons]

theorem countLoop_full (ds : List Int) (t : Int) (rest₁ : List Int) (fuel : Nat)
    (hds : ∀ d ∈ ds, 48 ≤ d ∧ d ≤ 57)
    (hhead : ∀ d, ds.head? = some d → 49 ≤ d)
    (hfuel : ds.length + 1 ≤ fuel)
    (ht : ¬ (49 ≤ t ∧ t ≤ 57)) (ht0 : ds ≠ [] → t ≠ 48)
    (htu : t = -1 ∨ (0 ≤ t ∧ t < 128) ∨ 257 ≤ t) :
    countLoop fuel (ds ++ t :: rest₁) 0 48 = (decVal ds, t, rest₁) := by
  cases ds with
  | nil =>
    cases fuel with
    | zero => exact absurd hfuel (by simp)
    | succ f =>
      simp only [List.nil_append, countLoop, keys_wgetch_unit t rest₁ htu]
      rw [if_neg (by omega)]
      simp [decVal]
  | cons d ds' =>
    have hd49 : 49 ≤ d := hhead d rfl
    have hd := hds d (List.mem_cons_self d ds')
    have ht48 : t ≠ 48 := ht0 (by simp)
    cases fuel with
    | zero => exact absurd hfuel (by simp)
    | succ f =>
      simp only [List.cons_append, countLoop,
        keys_wgetch_unit d (ds' ++ t :: rest₁) (Or.inr (Or.inl ⟨by omega, by omega⟩))]
      rw [if_pos (by omega)]
      norm_num
      rw [countLoop_run ds' f 0 d t rest₁
        (fun x hx => hds x (List.mem_cons_of_mem d hx)) (by omega) (by omega)
        (by omega) (by simp at hfuel ⊢; omega) (by omega) htu]
      simp [decVal, List.foldl_cons]

theorem map_toNat_cast (l : List Nat) :
    List.map Int.toNat (List.map (fun (b : Nat) => (b : Int)) l) = l := by
  induction l with
  | nil => rfl
  | cons a t ih => simp only [List.map_cons, Int.toNat_ofNat, ih]

theorem keys_wgetch_multibyte (b0 : Nat) (bs : List Nat) (rest : List Int)
    (h0 : 194 ≤ b0) (hb : b0 ≤ 247) (hlen : utf8_length b0 = bs.length + 1) :
    keys_wgetch ((b0 : Int) :: (bs.map (fun (b : Nat) => (b : Int)) ++ rest)) =
      ((utf8_decode (b0 :: bs) : Int) + 511, rest) := by
  have h2 : 2 ≤ utf8_length b0 := by
    unfold utf8_length
    split_ifs <;> omega
  have hbs : 1 ≤ bs.length := by omega
  have hmap := map_toNat_cast bs
  have hl : bs.length = (bs.map (fun (b : Nat) => (b : Int))).length := by simp
  simp only [keys_wgetch, Int.toNat_ofNat]
  rw [if_neg (by omega), if_neg (by push_cast; omega), if_neg (by omega), hlen]
  simp only [Nat.add_sub_cancel]
  rw [hl, List.take_left, List.drop_left, hmap]

/-- C8: feeding the UTF-8 encoding of a multi-byte code point `c`
byte-by-byte to `keys_wgetch` yields the key code `c + KEY_MAX`, while
a raw unit in the pseudo range (at or above `KEY_MIN`) or a single-byte
text unit is returned immediately unchanged. -/
theorem wgetch_decodes (c : Nat) (hc1 : 128 ≤ c) (hc2 : c ≤ 1114111)
    (rest : List Int) :
    keys_wgetch ((utf8_encode c).map (fun (b : Nat) => (b : Int)) ++ rest) =
      ((c : Int) + 511, rest) ∧
    (∀ ch : Int, 257 ≤ ch → keys_wgetch (ch :: rest) = (ch, rest)) ∧
    (∀ ch : Int, 0 ≤ ch → ch < 128 → keys_wgetch (ch :: rest) = (ch, rest)) := by
  refine ⟨?_, fun ch h => keys_wgetch_unit ch rest (Or.inr (Or.inr h)),
    fun ch h1 h2 => keys_wgetch_unit ch rest (Or.inr (Or.inl ⟨h1, h2⟩))⟩
  have hdec := utf8_decode_encode c hc2
  rcases Nat.lt_or_ge c 2048 with hr | hr
  · have he : utf8_encode c = [192 + c / 64, 128 + c % 64] := by
      unfold utf8_encode
      rw [if_neg (by omega), if_pos (by omega)]
    have hw := keys_wgetch_multibyte (192 + c / 64) [128 + c % 64] rest
      (by omega) (by omega)
      (by
        unfold utf8_length
        rw [if_neg (by omega), if_pos (by omega)]
        rfl)
    rw [he] at hdec
    rw [he]
    simp only [List.map_cons, List.map_nil, List.cons_append, List.nil_append]
      at hw ⊢
    rw [hw, hdec]
  rcases Nat.lt_or_ge c 65536 with hr2 | hr2
  · have he : utf8_encode c =
        [224 + c / 4096, 128 + c / 64 % 64, 128 + c % 64] := by
      unfold utf8_encode
      rw [if_neg (by omega), if_neg (by omega), if_pos (by omega)]
    have hw := keys_wgetch_multibyte (224 + c / 4096)
      [128 + c / 64 % 64, 128 + c % 64] rest (by omega) (by omega)
      (by
        unfold utf8_length
        rw [if_neg (by omega), if_neg (by omega), if_pos (by omega)]
        rfl)
    rw [he] at hdec
    rw [he]
    simp only [List.map_cons, List.map_nil, List.cons_append, List.nil_append]
      at hw ⊢
    rw [hw, hdec]
  · have he : utf8_encode c =
        [240 + c / 262144, 128 + c / 4096 % 64, 128 + c / 64 % 64,
         128 + c % 64] := by
      unfold utf8_encode
      rw [if_neg (by omega), if_neg (by omega), if_neg (by omega)]
    have hw := keys_wgetch_multibyte (240 + c / 262144)
      [128 + c / 4096 % 64, 128 + c / 64 % 64, 128 + c % 64] rest
      (by omega) (by omega)
      (by
        unfold utf8_length
        rw [if_neg (by omega), if_neg (by omega), if_neg (by omega),
          if_pos (by omega)]
        rfl)
    rw [he] at hdec
    rw [he]
    simp only [List.map_cons, List.map_nil, List.cons_append, List.nil_append]
      at hw ⊢
    rw [hw, hdec]

/-- C8 (witness): the euro sign, code point 0x20AC, encoded as
`E2 82 AC`, decodes through `keys_wgetch` to `0x20AC + 511`, and the
pseudo code 300 and the ASCII code 106 return unchanged. -/
theorem wgetch_decodes_witness :
    keys_wgetch [0xE2, 0x82, 0xAC, 7] = ((0x20AC : Int) + 511, [7]) ∧
    keys_wgetch [300, 7] = (300, [7]) ∧
    keys_wgetch [106, 7] = (106, [7]) := by
  have h := wgetch_decodes 0x20AC (by decide) (by decide) [7]
  refine ⟨?_, h.2.1 300 (by decide), h.2.2 106 (by decide) (by decide)⟩
  have h1 := h.1
  rw [show (utf8_encode 0x20AC).map (fun (b : Nat) => (b : Int)) ++ [7] =
    [0xE2, 0x82, 0xAC, 7] by decide] at h1
  exact h1

/-- C9: with prefix parsing enabled, `keys_get` returns the repeat
count equal to the decimal value of the leading digit run (defaulting
to 1 when there are no digits; a lone leading `0` is not consumed as a
count), the register selected by the code after the `"` prefix (1-9
for digits, 10-35 for letters, 0 otherwise and without the prefix),
and the virtual key the final code resolves to via `keys_get_action`.
The digit, register and final codes are single input units, the final
code is not `KEY_RESIZE`, and when no register prefix is given the
final code is not itself a digit or `"`. -/
theorem keys_get_prefix_grammar (s : KState) (ds : List Int) (useReg : Bool)
    (rc fk : Int) (rest : List Int)
    (hds : ∀ d ∈ ds, 48 ≤ d ∧ d ≤ 57)
    (hhead : ∀ d, ds.head? = some d → 49 ≤ d)
    (hrc : rc = -1 ∨ (0 ≤ rc ∧ rc < 128) ∨ 257 ≤ rc)
    (hfk1 : (0 ≤ fk ∧ fk < 128) ∨ 257 ≤ fk)
    (hfk2 : useReg = false →
      (¬ (49 ≤ fk ∧ fk ≤ 57)) ∧ (ds ≠ [] → fk ≠ 48) ∧ fk ≠ 34)
    (hfk3 : fk ≠ 410) :
    keys_get s (ds ++ (if useReg then [34, rc] else []) ++ fk :: rest) =
      (keys_get_action s fk, max (decVal ds) 1, regOf useReg rc) := by
  have hfku : fk = -1 ∨ (0 ≤ fk ∧ fk < 128) ∨ 257 ≤ fk := by
    rcases hfk1 with h | h
    · exact Or.inr (Or.inl h)
    · exact Or.inr (Or.inr h)
  have hmax : ∀ n : Nat, (if n = 0 then 1 else n) = max n 1 := by
    intro n
    split_ifs with h
    · omega
    · omega
  cases useReg with
  | false =>
    have hf := hfk2 rfl
    have heq : ds ++ (if (false : Bool) then [34, rc] else []) ++ fk :: rest =
        ds ++ fk :: rest := by simp
    rw [heq]
    have hcount := countLoop_full ds fk rest ((ds ++ fk :: rest).length + 1) hds
      hhead (by simp) hf.1 hf.2.1 hfku
    simp only [keys_get]
    rw [hcount]
    simp only
    rw [if_neg hf.2.2, if_neg hfk3, hmax]
    simp [regOf]
  | true =>
    have heq : ds ++ (if (true : Bool) then [34, rc] else []) ++ fk :: rest =
        ds ++ 34 :: (rc :: fk :: rest) := by simp
    rw [heq]
    have hcount := countLoop_full ds 34 (rc :: fk :: rest)
      ((ds ++ 34 :: (rc :: fk :: rest)).length + 1) hds hhead (by simp)
      (by omega) (fun _ => by omega) (by omega)
    simp only [keys_get]
    rw [hcount]
    simp only [if_true]
    rw [keys_wgetch_unit rc (fk :: rest) hrc]
    simp only
    rw [keys_wgetch_unit fk rest hfku]
    simp only
    rw [if_neg hfk3, hmax]
    simp [regOf]

/-- C9 (witness): with `"j"` (106) bound to action 33 and `"p"` (112)
bound to action 8, the input `"12j"` yields (action 33, count 12,
register 0) and the input `"\"ap"` yields (action 8, count 1, register
10). -/
theorem keys_get_prefix_grammar_witness :
    keys_get { initState with
        actions := ((List.replicate 511 KEY_UNDEF).set 106 33).set 112 8 }
      [49, 50, 106] = (33, 12, 0) ∧
    keys_get { initState with
        actions := ((List.replicate 511 KEY_UNDEF).set 106 33).set 112 8 }
      [34, 97, 112] = (8, 1, 10) := by
  constructor
  · rw [show ([49, 50, 106] : List Int) =
        [49, 50] ++ (if (false : Bool) then [34, (0 : Int)] else []) ++
          106 :: [] from rfl]
    rw [keys_get_prefix_grammar _ [49, 50] false 0 106 [] (by decide) (by decide)
      (by decide) (by decide) (by decide) (by decide)]
    decide
  · rw [show ([34, 97, 112] : List Int) =
        [] ++ (if (true : Bool) then [34, (97 : Int)] else []) ++
          112 :: [] from rfl]
    rw [keys_get_prefix_grammar _ [] true 97 112 [] (by decide) (by decide)
      (by decide) (by decide) (by decide) (by decide)]
    decide

/-- C3: on the freshly initialized table every virtual key is missing
(`keys_check_missing` is true); `keys_fill_missing` parses and assigns
every default binding of the shipped `keydef[]` table without any
conflict, returning `NBVKEYS` (every action received at least one
default), after which `keys_check_missing` is false. -/
theorem fill_missing_defaults :
    keys_check_missing initState = true ∧
    (keys_fill_missing initState).2 = (NBVKEYS : Int) ∧
    keys_check_missing (keys_fill_missing initState).1 = false := by
  decide

theorem canonicalKeyB_props (k : Int) (h : canonicalKeyB k = true) :
    0 ≤ k ∧ k ≠ 511 := by
  constructor
  · by_contra h0
    push_neg at h0
    have hnone : keys_int2str k = none := by
      unfold keys_int2str
      by_cases he : k = -1
      · rw [if_pos he]
      · rw [if_neg he, if_pos (by omega), show k.toNat = 0 by omega,
          if_pos (by decide)]
    unfold canonicalKeyB at h
    rw [hnone] at h
    simp at h
  · intro he
    subst he
    exact absurd h (by decide)

theorem canonicalKeyB_name (k : Int) (h : canonicalKeyB k = true) :
    ∃ nm, keys_int2str k = some nm ∧ keys_str2int nm = k := by
  unfold canonicalKeyB at h
  cases hnm : keys_int2str k with
  | none => rw [hnm] at h; simp at h
  | some nm =>
    rw [hnm] at h
    simp only [decide_eq_true_eq] at h
    exact ⟨nm, rfl, h⟩

theorem canonical_name_inj (k1 k2 : Int) (h1 : canonicalKeyB k1 = true)
    (h2 : canonicalKeyB k2 = true) (nm : List Nat)
    (e1 : keys_int2str k1 = some nm) (e2 : keys_int2str k2 = some nm) :
    k1 = k2 := by
  unfold canonicalKeyB at h1 h2
  rw [e1] at h1
  rw [e2] at h2
  simp only [decide_eq_true_eq] at h1 h2
  rw [← h1, ← h2]

theorem keyOwner_ext (s : KState) (k : Int) (h : k > 511) :
    keyOwner s k = (s.actions_ext.find? (fun kv => kv.1 = k)).map Prod.snd := by
  unfold keyOwner
  rw [if_pos h]

theorem keyOwner_dense_undef (s : KState) (k : Int) (h : ¬ k > 511)
    (hu : s.actions.getD k.toNat KEY_UNDEF = KEY_UNDEF) :
    keyOwner s k = none := by
  unfold keyOwner
  rw [if_neg h, if_pos hu]

theorem keyOwner_dense_def (s : KState) (k : Int) (h : ¬ k > 511)
    (hu : s.actions.getD k.toNat KEY_UNDEF ≠ KEY_UNDEF) :
    keyOwner s k = some (s.actions.getD k.toNat KEY_UNDEF) := by
  unfold keyOwner
  rw [if_neg h, if_neg hu]

theorem getD_replicate {α : Type} (n i : Nat) (a : α) :
    (List.replicate n a).getD i a = a := by
  induction n generalizing i with
  | zero => rfl
  | succ m ih =>
    cases i with
    | zero => rfl
    | succ j => simpa [List.replicate] using ih j

theorem filter_unique_length (n v : Nat) (p : Nat → Bool) (hv : v < n)
    (hpv : p v = true) (hp : ∀ w, w ≠ v → p w = false) :
    ((List.range n).filter p).length = 1 := by
  induction n with
  | zero => omega
  | succ m ih =>
    rw [List.range_succ, List.filter_append]
    by_cases he : v = m
    · subst he
      have hnil : (List.range v).filter p = [] := by
        rw [List.filter_eq_nil_iff]
        intro a ha
        simp only [List.mem_range] at ha
        simp [hp a (by omega)]
      rw [hnil]
      simp [hpv]
    · have hm : p m = false := hp m (fun hx => he hx.symm)
      rw [List.length_append, ih (by omega)]
      simp [hm]

theorem filter_none_length (n : Nat) (p : Nat → Bool)
    (hp : ∀ w, p w = false) : ((List.range n).filter p).length = 0 := by
  rw [List.length_eq_zero, List.filter_eq_nil_iff]
  intro a _
  simp [hp a]

theorem listsWithName_eq_one (s : KState) (nm : List Nat) (v : Nat)
    (hv : v < NBVKEYS)
    (h1 : 0 < (s.keys.getD v []).count (some nm))
    (h2 : ∀ w, w ≠ v → (s.keys.getD w []).count (some nm) = 0) :
    listsWithName s nm = 1 := by
  unfold listsWithName
  refine filter_unique_length NBVKEYS v _ hv ?_ ?_
  · simp only [decide_eq_true_eq]
    exact List.count_pos_iff.mp h1
  · intro w hw
    simp only [decide_eq_false_iff_not]
    exact List.count_eq_zero.mp (h2 w hw)

theorem listsWithName_eq_zero (s : KState) (nm : List Nat)
    (h : ∀ w, (s.keys.getD w []).count (some nm) = 0) :
    listsWithName s nm = 0 := by
  unfold listsWithName
  refine filter_none_length NBVKEYS _ ?_
  intro w
  simp only [decide_eq_false_iff_not]
  exact List.count_eq_zero.mp (h w)

theorem consistent_of_inv (s : KState) (hInv : Inv s) :
    ConsistentCanonical s := by
  obtain ⟨⟨hkl, hal, hnd, hextr, hactr, hwf⟩, hmain⟩ := hInv
  intro k hk nm hnm
  have hm := hmain k hk nm hnm
  constructor
  · intro hrev
    unfold inReverseMap at hrev
    obtain ⟨v, hv⟩ := Option.isSome_iff_exists.mp hrev
    have hv48 : v < NBVKEYS := by
      by_cases hgt : k > 511
      · rw [keyOwner_ext s k hgt] at hv
        obtain ⟨kv, hf, he⟩ := Option.map_eq_some'.mp hv
        have := hextr kv (List.mem_of_find?_eq_some hf)
        omega
      · by_cases hu : s.actions.getD k.toNat KEY_UNDEF = KEY_UNDEF
        · rw [keyOwner_dense_undef s k hgt hu] at hv
          simp at hv
        · rw [keyOwner_dense_def s k hgt hu] at hv
          have hv' : s.actions.getD k.toNat KEY_UNDEF = v := by
            simpa using hv
          by_cases hlt : k.toNat < s.actions.length
          · have hmem : s.actions.getD k.toNat KEY_UNDEF ∈ s.actions := by
              rw [List.getD_eq_getElem s.actions KEY_UNDEF hlt]
              exact List.getElem_mem hlt
            rcases hactr _ hmem with h49 | h48
            · exact absurd h49 hu
            · rw [hv'] at h48
              exact h48
          · exact absurd (List.getD_eq_default s.actions KEY_UNDEF (by omega)) hu
    have hc := hm.1 v hv
    exact listsWithName_eq_one s nm v hv48 (by omega) hc.2
  · intro hcount
    by_contra hrev
    unfold inReverseMap at hrev
    have hnone : keyOwner s k = none := by
      cases ho : keyOwner s k with
      | none => rfl
      | some v => rw [ho] at hrev; simp at hrev
    have := listsWithName_eq_zero s nm (hm.2 hnone)
    omega

theorem wf_list_add (y : List (Option (List Nat))) (nm : List Nat)
    (hy : y = [none] ∨ (none : Option (List Nat)) ∉ y) :
    (del_if_undefined y ++ [some nm]) = [none] ∨
      (none : Option (List Nat)) ∉ (del_if_undefined y ++ [some nm]) := by
  right
  rcases hy with h | h
  · subst h
    simp [del_if_undefined]
  · have hd : del_if_undefined y = y := by
      cases y with
      | nil => rfl
      | cons a t =>
        cases a with
        | none => exact absurd (List.mem_cons_self none t) h
        | some b => rfl
    rw [hd]
    intro hmem
    rcases List.mem_append.mp hmem with h1 | h1
    · exact h h1
    · simp at h1

theorem wf_list_remove (y : List (Option (List Nat))) (nm : List Nat)
    (hy : y = [none] ∨ (none : Option (List Nat)) ∉ y) :
    (add_if_undefined (removeFirstStr y (some nm))) = [none] ∨
      (none : Option (List Nat)) ∉
        (add_if_undefined (removeFirstStr y (some nm))) := by
  rcases hy with h | h
  · subst h
    left
    simp [removeFirstStr, add_if_undefined]
  · have hn : (none : Option (List Nat)) ∉ removeFirstStr y (some nm) :=
      fun hm => h ((removeFirstStr_sublist y (some nm)).subset hm)
    unfold add_if_undefined
    by_cases he : removeFirstStr y (some nm) = []
    · rw [if_pos he]
      left
      rfl
    · rw [if_neg he]
      right
      exact hn

theorem count_assign_upd (L : List (Option (List Nat))) (nm nm' : List Nat) :
    (del_if_undefined L ++ [some nm]).count (some nm') =
      L.count (some nm') + (if nm' = nm then 1 else 0) := by
  rw [List.count_append, count_del_if_undefined]
  congr 1
  by_cases he : nm' = nm
  · subst he
    simp
  · simp [List.count_cons, he]

theorem count_remove_upd_ne (L : List (Option (List Nat))) (nm nm' : List Nat)
    (hne : nm' ≠ nm) :
    (add_if_undefined (removeFirstStr L (some nm))).count (some nm') =
      L.count (some nm') := by
  rw [count_add_if_undefined,
    count_removeFirstStr_ne L (some nm) (some nm') (by simp [hne])]

theorem count_remove_upd_self (L : List (Option (List Nat))) (nm : List Nat)
    (h : L.count (some nm) = 1) :
    (add_if_undefined (removeFirstStr L (some nm))).count (some nm) = 0 := by
  rw [count_add_if_undefined,
    count_removeFirstStr_self L (some nm) (List.count_pos_iff.mp (by omega)), h]

theorem find?_append_sing_ne (l : List (Int × Nat)) (k k' : Int) (v : Nat)
    (hne : k' ≠ k) :
    (l ++ [(k, v)]).find? (fun kv => kv.1 = k') =
      l.find? (fun kv => kv.1 = k') := by
  rw [List.find?_append]
  cases h : l.find? (fun kv => kv.1 = k') with
  | some x => rfl
  | none =>
    have : (decide (k = k')) = false := by
      simp only [decide_eq_false_iff_not]
      exact fun he => hne he.symm
    simp [List.find?, this]

theorem find?_append_sing_self (l : List (Int × Nat)) (k : Int) (v : Nat)
    (hf : l.find? (fun kv => kv.1 = k) = none) :
    (l ++ [(k, v)]).find? (fun kv => kv.1 = k) = some (k, v) := by
  rw [List.find?_append, hf]
  simp [List.find?]

theorem count_listUpd_assign (ks : List (List (Option (List Nat))))
    (v w : Nat) (nm nm' : List Nat) (hv : v < ks.length) :
    ((listUpd ks v (fun l => del_if_undefined l ++ [some nm])).getD w
        []).count (some nm') =
      (ks.getD w []).count (some nm') +
        (if w = v ∧ nm' = nm then 1 else 0) := by
  by_cases he : w = v
  · subst he
    rw [listUpd_getD_self ks w _ [] hv, count_assign_upd]
    simp
  · rw [listUpd_getD_ne ks v w _ [] he]
    simp [he]

theorem inv_preserved_assign (s : KState) (k : Int) (v : Nat)
    (hk : canonicalKeyB k = true) (hv : v < NBVKEYS)
    (hsucc : (keys_assign_binding s k v).2 = 0)
    (hInv : Inv s) : Inv (keys_assign_binding s k v).1 := by
  obtain ⟨⟨hkl, hal, hnd, hextr, hactr, hwf⟩, hmain⟩ := hInv
  obtain ⟨hk0, hk511⟩ := canonicalKeyB_props k hk
  obtain ⟨nm, hnm, _⟩ := canonicalKeyB_name k hk
  have hvle : ¬ v > NBVKEYS := by omega
  have hvlen : v < s.keys.length := by rw [hkl]; exact hv
  have hvKU : v ≠ KEY_UNDEF := by
    simp only [KEY_UNDEF]
    simp only [NBVKEYS] at hv
    omega
  by_cases hgt : k > 511
  · have hf := keys_assign_binding_success_ext s k v hgt hsucc
    have hfne : ∀ kv ∈ s.actions_ext, ¬ kv.1 = k := by
      intro kv hm
      simpa using List.find?_eq_none.mp hf kv hm
    have hs1 := keys_assign_binding_ext s k v hgt hf
    have hkeys : (keys_assign_binding s k v).1.keys =
        listUpd s.keys v (fun l => del_if_undefined l ++ [some nm]) := by
      rw [hs1, add_key_str_keys _ _ _ hvle, hnm]
    have hact : (keys_assign_binding s k v).1.actions = s.actions := by
      rw [hs1, add_key_str_actions]
    have hext : (keys_assign_binding s k v).1.actions_ext =
        s.actions_ext ++ [(k, v)] := by
      rw [hs1, add_key_str_ext]
    have hown : keyOwner s k = none := by
      rw [keyOwner_ext s k hgt, hf]
      rfl
    refine ⟨⟨?_, ?_, ?_, ?_, ?_, ?_⟩, ?_⟩
    · rw [hkeys, listUpd_length, hkl]
    · rw [hact, hal]
    · rw [hext, List.map_append, List.nodup_append]
      refine ⟨hnd, by simp, ?_⟩
      intro a ha hmem
      obtain ⟨kv, hkv, he⟩ := List.mem_map.mp ha
      simp only [List.map_cons, List.map_nil, List.mem_singleton] at hmem
      exact hfne kv hkv (he.trans hmem)
    · rw [hext]
      intro kv hm
      rcases List.mem_append.mp hm with h | h
      · exact hextr kv h
      · simp only [List.mem_singleton] at h
        subst h
        exact ⟨hgt, hv⟩
    · rw [hact]
      exact hactr
    · rw [hkeys]
      intro l hl
      rcases listUpd_mem hl with h | ⟨y, hy, he⟩
      · exact hwf l h
      · subst he
        exact wf_list_add y nm (hwf y hy)
    · intro k' hk' nm' hnm'
      by_cases hkk : k' = k
      · subst hkk
        have hnmeq : nm' = nm := by
          rw [hnm] at hnm'
          exact Option.some.inj hnm'.symm
        have hown1 : keyOwner (keys_assign_binding s k' v).1 k' = some v := by
          rw [keyOwner_ext _ _ hgt, hext, find?_append_sing_self _ _ _ hf]
          rfl
        have hzero := (hmain k' hk' nm' hnm').2 hown
        rw [hnmeq] at hzero ⊢
        constructor
        · intro v' hv'
          rw [hown1] at hv'
          have hveq : v' = v := (Option.some.inj hv').symm
          rw [hveq]
          constructor
          · rw [hkeys, count_listUpd_assign s.keys v v nm nm hvlen, hzero v]
            simp
          · intro w hw
            rw [hkeys, count_listUpd_assign s.keys v w nm nm hvlen, hzero w]
            simp [hw]
        · intro hcontra
          rw [hown1] at hcontra
          simp at hcontra
      · have hinj : nm' ≠ nm :=
          fun he => hkk (canonical_name_inj k' k hk' hk nm (he ▸ hnm') hnm)
        have hown_eq : keyOwner (keys_assign_binding s k v).1 k' =
            keyOwner s k' := by
          by_cases hgt' : k' > 511
          · rw [keyOwner_ext _ _ hgt', keyOwner_ext _ _ hgt', hext,
              find?_append_sing_ne _ _ _ _ hkk]
          · unfold keyOwner
            rw [if_neg hgt', if_neg hgt', hact]
        have hcnt : ∀ w,
            (((keys_assign_binding s k v).1.keys.getD w []).count (some nm')) =
              ((s.keys.getD w []).count (some nm')) := by
          intro w
          rw [hkeys, count_listUpd_assign s.keys v w nm nm' hvlen]
          simp [hinj]
        have hm' := hmain k' hk' nm' hnm'
        constructor
        · intro v' hv'
          rw [hown_eq] at hv'
          obtain ⟨hc1, hc2⟩ := hm'.1 v' hv'
          exact ⟨by rw [hcnt v']; exact hc1,
            fun w hw => by rw [hcnt w]; exact hc2 w hw⟩
        · intro ho
          rw [hown_eq] at ho
          intro w
          rw [hcnt w]
          exact hm'.2 ho w
  · have hge : k > -1 := by omega
    have hfu := keys_assign_binding_success_dense s k v hgt hge hsucc
    have hs1 := keys_assign_binding_dense s k v hgt hge hfu
    have hkeys : (keys_assign_binding s k v).1.keys =
        listUpd s.keys v (fun l => del_if_undefined l ++ [some nm]) := by
      rw [hs1, add_key_str_keys _ _ _ hvle, hnm]
    have hact : (keys_assign_binding s k v).1.actions =
        s.actions.set k.toNat v := by
      rw [hs1, add_key_str_actions]
    have hext : (keys_assign_binding s k v).1.actions_ext = s.actions_ext := by
      rw [hs1, add_key_str_ext]
    have halen : k.toNat < s.actions.length := by
      rw [hal]
      simp only [KEY_MAXC]
      omega
    have hown : keyOwner s k = none := keyOwner_dense_undef s k hgt hfu
    have hgd : (keys_assign_binding s k v).1.actions.getD k.toNat KEY_UNDEF
        = v := by
      rw [hact]
      exact getD_set_self s.actions k.toNat v KEY_UNDEF halen
    refine ⟨⟨?_, ?_, ?_, ?_, ?_, ?_⟩, ?_⟩
    · rw [hkeys, listUpd_length, hkl]
    · rw [hact, List.length_set, hal]
    · rw [hext]
      exact hnd
    · rw [hext]
      exact hextr
    · rw [hact]
      intro a ha
      rcases List.mem_or_eq_of_mem_set ha with h | h
      · exact hactr a h
      · exact Or.inr (h ▸ hv)
    · rw [hkeys]
      intro l hl
      rcases listUpd_mem hl with h | ⟨y, hy, he⟩
      · exact hwf l h
      · subst he
        exact wf_list_add y nm (hwf y hy)
    · intro k' hk' nm' hnm'
      by_cases hkk : k' = k
      · subst hkk
        have hnmeq : nm' = nm := by
          rw [hnm] at hnm'
          exact Option.some.inj hnm'.symm
        have hown1 : keyOwner (keys_assign_binding s k' v).1 k' = some v := by
          rw [keyOwner_dense_def _ k' hgt (by rw [hgd]; exact hvKU), hgd]
        have hzero := (hmain k' hk' nm' hnm').2 hown
        rw [hnmeq] at hzero ⊢
        constructor
        · intro v' hv'
          rw [hown1] at hv'
          have hveq : v' = v := (Option.some.inj hv').symm
          rw [hveq]
          constructor
          · rw [hkeys, count_listUpd_assign s.keys v v nm nm hvlen, hzero v]
            simp
          · intro w hw
            rw [hkeys, count_listUpd_assign s.keys v w nm nm hvlen, hzero w]
            simp [hw]
        · intro hcontra
          rw [hown1] at hcontra
          simp at hcontra
      · have hinj : nm' ≠ nm :=
          fun he => hkk (canonical_name_inj k' k hk' hk nm (he ▸ hnm') hnm)
        obtain ⟨hk0', _⟩ := canonicalKeyB_props k' hk'
        have hown_eq : keyOwner (keys_assign_binding s k v).1 k' =
            keyOwner s k' := by
          by_cases hgt' : k' > 511
          · rw [keyOwner_ext _ _ hgt', keyOwner_ext _ _ hgt', hext]
          · unfold keyOwner
            rw [if_neg hgt', if_neg hgt', hact,
              getD_set_ne s.actions k.toNat k'.toNat v KEY_UNDEF (by omega)]
        have hcnt : ∀ w,
            (((keys_assign_binding s k v).1.keys.getD w []).count (some nm')) =
              ((s.keys.getD w []).count (some nm')) := by
          intro w
          rw [hkeys, count_listUpd_assign s.keys v w nm nm' hvlen]
          simp [hinj]
        have hm' := hmain k' hk' nm' hnm'
        constructor
        · intro v' hv'
          rw [hown_eq] at hv'
          obtain ⟨hc1, hc2⟩ := hm'.1 v' hv'
          exact ⟨by rw [hcnt v']; exact hc1,
            fun w hw => by rw [hcnt w]; exact hc2 w hw⟩
        · intro ho
          rw [hown_eq] at ho
          intro w
          rw [hcnt w]
          exact hm'.2 ho w

theorem inv_preserved_remove (s : KState) (k : Int) (v : Nat)
    (hk : canonicalKeyB k = true) (hv : v < NBVKEYS)
    (hb : keyOwner s k = some v)
    (hInv : Inv s) : Inv (keys_remove_binding s k v) := by
  obtain ⟨⟨hkl, hal, hnd, hextr, hactr, hwf⟩, hmain⟩ := hInv
  obtain ⟨hk0, hk511⟩ := canonicalKeyB_props k hk
  obtain ⟨nm, hnm, _⟩ := canonicalKeyB_name k hk
  have hvle : ¬ v > NBVKEYS := by omega
  have hvlen : v < s.keys.length := by rw [hkl]; exact hv
  have hcnt1 := (hmain k hk nm hnm).1 v hb
  by_cases hgt : k > 511
  · rw [keys_remove_binding_ext s k v (by omega) (by omega)]
    have hkeys : (del_key_str
        { s with actions_ext := removeFirstExt s.actions_ext k } v k).keys =
        listUpd s.keys v
          (fun l => add_if_undefined (removeFirstStr l (some nm))) := by
      rw [del_key_str_keys _ _ _ hvle, hnm]
    have hact : (del_key_str
        { s with actions_ext := removeFirstExt s.actions_ext k } v k).actions =
        s.actions := by
      rw [del_key_str_actions]
    have hext : (del_key_str
        { s with actions_ext := removeFirstExt s.actions_ext k } v
          k).actions_ext = removeFirstExt s.actions_ext k := by
      rw [del_key_str_ext]
    refine ⟨⟨?_, ?_, ?_, ?_, ?_, ?_⟩, ?_⟩
    · rw [hkeys, listUpd_length, hkl]
    · rw [hact, hal]
    · rw [hext]
      exact hnd.sublist ((removeFirstExt_sublist s.actions_ext k).map Prod.fst)
    · rw [hext]
      intro kv hm
      exact hextr kv ((removeFirstExt_sublist s.actions_ext k).subset hm)
    · rw [hact]
      exact hactr
    · rw [hkeys]
      intro l hl
      rcases listUpd_mem hl with h | ⟨y, hy, he⟩
      · exact hwf l h
      · subst he
        exact wf_list_remove y nm (hwf y hy)
    · intro k' hk' nm' hnm'
      by_cases hkk : k' = k
      · have hnmeq : nm' = nm := by
          rw [hkk, hnm] at hnm'
          exact Option.some.inj hnm'.symm
        have hown1 : keyOwner (del_key_str
            { s with actions_ext := removeFirstExt s.actions_ext k } v k)
            k' = none := by
          rw [hkk, keyOwner_ext _ _ hgt, hext,
            find?_removeFirstExt_self s.actions_ext k hnd]
          rfl
        constructor
        · intro v' hv'
          rw [hown1] at hv'
          simp at hv'
        · intro _ w
          rw [hkeys, hnmeq]
          by_cases hw : w = v
          · rw [hw, listUpd_getD_self s.keys v _ [] hvlen]
            exact count_remove_upd_self _ nm hcnt1.1
          · rw [listUpd_getD_ne s.keys v w _ [] hw]
            exact hcnt1.2 w hw
      · have hinj : nm' ≠ nm :=
          fun he => hkk (canonical_name_inj k' k hk' hk nm (he ▸ hnm') hnm)
        have hown_eq : keyOwner (del_key_str
            { s with actions_ext := removeFirstExt s.actions_ext k } v k) k' =
            keyOwner s k' := by
          by_cases hgt' : k' > 511
          · rw [keyOwner_ext _ _ hgt', keyOwner_ext _ _ hgt', hext,
              find?_removeFirstExt_ne s.actions_ext k k' hkk]
          · unfold keyOwner
            rw [if_neg hgt', if_neg hgt', hact]
        have hcnt : ∀ w, (((del_key_str
            { s with actions_ext := removeFirstExt s.actions_ext k } v
              k).keys.getD w []).count (some nm')) =
            ((s.keys.getD w []).count (some nm')) := by
          intro w
          rw [hkeys]
          by_cases hw : w = v
          · rw [hw, listUpd_getD_self s.keys v _ [] hvlen]
            exact count_remove_upd_ne _ nm nm' hinj
          · rw [listUpd_getD_ne s.keys v w _ [] hw]
        have hm' := hmain k' hk' nm' hnm'
        constructor
        · intro v' hv'
          rw [hown_eq] at hv'
          obtain ⟨hc1, hc2⟩ := hm'.1 v' hv'
          exact ⟨by rw [hcnt v']; exact hc1,
            fun w hw => by rw [hcnt w]; exact hc2 w hw⟩
        · intro ho
          rw [hown_eq] at ho
          intro w
          rw [hcnt w]
          exact hm'.2 ho w
  · have halen : k.toNat < s.actions.length := by
      rw [hal]
      simp only [KEY_MAXC]
      omega
    rw [keys_remove_binding_dense s k v (by omega) (by omega)]
    have hkeys : (del_key_str
        { s with actions := s.actions.set k.toNat KEY_UNDEF } v k).keys =
        listUpd s.keys v
          (fun l => add_if_undefined (removeFirstStr l (some nm))) := by
      rw [del_key_str_keys _ _ _ hvle, hnm]
    have hact : (del_key_str
        { s with actions := s.actions.set k.toNat KEY_UNDEF } v k).actions =
        s.actions.set k.toNat KEY_UNDEF := by
      rw [del_key_str_actions]
    have hext : (del_key_str
        { s with actions := s.actions.set k.toNat KEY_UNDEF } v
          k).actions_ext = s.actions_ext := by
      rw [del_key_str_ext]
    refine ⟨⟨?_, ?_, ?_, ?_, ?_, ?_⟩, ?_⟩
    · rw [hkeys, listUpd_length, hkl]
    · rw [hact, List.length_set, hal]
    · rw [hext]
      exact hnd
    · rw [hext]
      exact hextr
    · rw [hact]
      intro a ha
      rcases List.mem_or_eq_of_mem_set ha with h | h
      · exact hactr a h
      · exact Or.inl h
    · rw [hkeys]
      intro l hl
      rcases listUpd_mem hl with h | ⟨y, hy, he⟩
      · exact hwf l h
      · subst he
        exact wf_list_remove y nm (hwf y hy)
    · intro k' hk' nm' hnm'
      by_cases hkk : k' = k
      · have hnmeq : nm' = nm := by
          rw [hkk, hnm] at hnm'
          exact Option.some.inj hnm'.symm
        have hown1 : keyOwner (del_key_str
            { s with actions := s.actions.set k.toNat KEY_UNDEF } v k)
            k' = none := by
          rw [hkk]
          refine keyOwner_dense_undef _ k hgt ?_
          rw [hact]
          exact getD_set_self s.actions k.toNat KEY_UNDEF KEY_UNDEF halen
        constructor
        · intro v' hv'
          rw [hown1] at hv'
          simp at hv'
        · intro _ w
          rw [hkeys, hnmeq]
          by_cases hw : w = v
          · rw [hw, listUpd_getD_self s.keys v _ [] hvlen]
            exact count_remove_upd_self _ nm hcnt1.1
          · rw [listUpd_getD_ne s.keys v w _ [] hw]
            exact hcnt1.2 w hw
      · have hinj : nm' ≠ nm :=
          fun he => hkk (canonical_name_inj k' k hk' hk nm (he ▸ hnm') hnm)
        obtain ⟨hk0', _⟩ := canonicalKeyB_props k' hk'
        have hown_eq : keyOwner (del_key_str
            { s with actions := s.actions.set k.toNat KEY_UNDEF } v k) k' =
            keyOwner s k' := by
          by_cases hgt' : k' > 511
          · rw [keyOwner_ext _ _ hgt', keyOwner_ext _ _ hgt', hext]
          · unfold keyOwner
            rw [if_neg hgt', if_neg hgt', hact,
              getD_set_ne s.actions k.toNat k'.toNat KEY_UNDEF KEY_UNDEF
                (by omega)]
        have hcnt : ∀ w, (((del_key_str
            { s with actions := s.actions.set k.toNat KEY_UNDEF } v
              k).keys.getD w []).count (some nm')) =
            ((s.keys.getD w []).count (some nm')) := by
          intro w
          rw [hkeys]
          by_cases hw : w = v
          · rw [hw, listUpd_getD_self s.keys v _ [] hvlen]
            exact count_remove_upd_ne _ nm nm' hinj
          · rw [listUpd_getD_ne s.keys v w _ [] hw]
        have hm' := hmain k' hk' nm' hnm'
        constructor
        · intro v' hv'
          rw [hown_eq] at hv'
          obtain ⟨hc1, hc2⟩ := hm'.1 v' hv'
          exact ⟨by rw [hcnt v']; exact hc1,
            fun w hw => by rw [hcnt w]; exact hc2 w hw⟩
        · intro ho
          rw [hown_eq] at ho
          intro w
          rw [hcnt w]
          exact hm'.2 ho w

theorem inv_init : Inv initState := by
  refine ⟨⟨?_, ?_, ?_, ?_, ?_, ?_⟩, ?_⟩
  · simp [initState]
  · simp [initState]
  · simp [initState]
  · simp [initState]
  · intro a ha
    simp only [initState] at ha
    exact Or.inl (List.eq_of_mem_replicate ha)
  · intro l hl
    simp only [initState] at hl
    have he := List.eq_of_mem_replicate hl
    subst he
    exact Or.inr (by simp)
  · intro k hk nm hnm
    have hown : keyOwner initState k = none := by
      by_cases hgt : k > 511
      · rw [keyOwner_ext _ _ hgt]
        rfl
      · refine keyOwner_dense_undef _ k hgt ?_
        exact getD_replicate KEY_MAXC k.toNat KEY_UNDEF
    constructor
    · intro v hv
      rw [hown] at hv
      simp at hv
    · intro _ w
      show ((List.replicate NBVKEYS ([] : List (Option (List Nat)))).getD w
        []).count (some nm) = 0
      rw [getD_replicate]
      rfl

/-- C1 (counterexample): the claimed invariant — a valid named KeyCode
is in the reverse map iff its name is in exactly one forward list —
fails on a reachable state.  From the initialized table, a successful
`assign(113, 0)` (`"q"`) followed by the (always succeeding)
`remove(113, 1)` reaches a state in which 113 is no longer in the
reverse map, yet `"q"` still sits in exactly one forward list: the
remove cleared the reverse entry unconditionally but searched the wrong
virtual key's list. -/
theorem binding_consistency_counterexample :
    ReachableOrig
      (keys_remove_binding (keys_assign_binding initState 113 0).1 113 1) ∧
    ¬ ConsistentClaim
      (keys_remove_binding (keys_assign_binding initState 113 0).1 113 1) := by
  constructor
  · have step1 : StepOrig initState (keys_assign_binding initState 113 0).1 :=
      StepOrig.assign initState 113 0 (Or.inl (by constructor <;> decide))
        (by decide) (by decide)
    have step2 : StepOrig (keys_assign_binding initState 113 0).1
        (keys_remove_binding (keys_assign_binding initState 113 0).1 113 1) :=
      StepOrig.remove (keys_assign_binding initState 113 0).1 113 1
        (Or.inl (by constructor <;> decide)) (by decide)
    exact Relation.ReflTransGen.tail (Relation.ReflTransGen.single step1) step2
  · intro hcon
    have h := hcon 113 (Or.inl (by constructor <;> decide)) (str "q") (by decide)
    have h1 : inReverseMap
        (keys_remove_binding (keys_assign_binding initState 113 0).1 113 1)
        113 = false := by decide
    have h2 : listsWithName
        (keys_remove_binding (keys_assign_binding initState 113 0).1 113 1)
        (str "q") = 1 := by decide
    rw [h1, h2] at h
    exact absurd (h.mpr rfl) (by simp)

/-- C1 (amended): for every state reachable from `keys_init` by
successful assignments of canonically named key codes and by removals
that target the virtual key the code is currently bound to (as the
configuration UI performs them), the reverse map and the forward lists
are mutually consistent: a canonically named KeyCode appears in the
reverse map iff its name appears in exactly one VirtualKey's forward
list. -/
theorem binding_table_consistent (s : KState) (hs : ReachableR s) :
    ConsistentCanonical s := by
  have hInv : Inv s := by
    induction hs with
    | refl => exact inv_init
    | tail hab hbc ih =>
      cases hbc with
      | assign k v hk hv hsucc =>
        exact inv_preserved_assign _ k v hk hv hsucc ih
      | remove k v hk hv hb =>
        exact inv_preserved_remove _ k v hk hv hb ih
  exact consistent_of_inv s hInv

/-- C1 (witness): the consistency property, instantiated at the
reachable state obtained by assigning `"q"` (113) to action 0 on the
initialized table. -/
theorem binding_table_consistent_witness :
    ConsistentCanonical (keys_assign_binding initState 113 0).1 :=
  binding_table_consistent (keys_assign_binding initState 113 0).1
    (Relation.ReflTransGen.single
      (StepR.assign initState 113 0 (by decide) (by decide) (by decide)))

end Calcurse
